import Mathlib

/-!
The delta codec and patch engine of labgo.

A shallow embedding of `file.go` (`ReaderToDeltas`, `DeltaToBuffer`,
`DeltaToPath`) and of the create loop of `lab.go` (`CreateFromPaths`),
followed by the properties proved about them.

Conventions of the embedding:

* a Go byte slice is a `List Byte`; `len` is `List.length`;
* Go's `uint64` and `int` / `int64` values are carried as `Nat` / `Int`, and
  every arithmetic operation that can overflow is followed by the reduction
  `uint64` / `int64` below;
* a Go `error` is `Option Error`, `none` being `nil`;
* a run-time panic is an explicit outcome (`none` for `DeltaToBuffer`,
  `Exit.panicked` elsewhere).
-/

set_option autoImplicit false

namespace Labgo

/-! ## Machine integers -/

/-- One byte of a Go `[]byte`. -/
abbrev Byte := UInt8

/-- Reduction of a mathematical integer to Go's `uint64` (two's complement). -/
def uint64 (n : Int) : Nat := (n % 2 ^ 64).toNat

/-- Reduction of a mathematical integer to Go's `int64` (also `int` on 64-bit
targets), wrapping around. -/
def int64 (n : Int) : Int := (n + 2 ^ 63) % 2 ^ 64 - 2 ^ 63

/-- Largest value of Go's `int`; `make` panics on a larger length. -/
def maxInt : Nat := 2 ^ 63 - 1

/-! ## Data model -/

/-- Message `Delta` of the payload: `Offset uint64`, `Remove []byte`,
`Add []byte`. -/
structure Delta where
  Offset : Nat
  Remove : List Byte
  Add : List Byte
  deriving DecidableEq

/-- Go `error` values that the code distinguishes: `io.EOF` and all others. -/
inductive Error where
  | EOF
  | other (what : String)
  deriving DecidableEq

/-! ## Slice expressions -/

/-- Slice expression `s[:hi]`; `none` is the run-time panic for `hi` out of
range. -/
def sliceTo (s : List Byte) (hi : Nat) : Option (List Byte) :=
  if hi ≤ s.length then some (s.take hi) else none

/-- Slice expression `s[lo:]`; `none` is the run-time panic for `lo` out of
range. -/
def sliceFrom (s : List Byte) (lo : Nat) : Option (List Byte) :=
  if lo ≤ s.length then some (s.drop lo) else none

/-- Slice expression `s[lo:hi]` for bounds in range. -/
def slice (s : List Byte) (lo hi : Nat) : List Byte := (s.take hi).drop lo

/-! ## `DeltaToBuffer` (file.go, lines 82-93) -/

/-- Embedding of `DeltaToBuffer`. The two guarded `append`s are kept as they
are written; a slice expression out of range makes the whole call `none`. -/
def DeltaToBuffer (delta : Delta) (buffer : List Byte) : Option (List Byte) :=
  let length := buffer.length
  let front : Option (List Byte) :=
    if delta.Offset ≤ length then sliceTo buffer delta.Offset else some []
  front.bind fun result =>
    let result := result ++ delta.Add
    let index := uint64 (delta.Offset + delta.Remove.length)
    if index < length then (sliceFrom buffer index).map (fun tail => result ++ tail)
    else some result

/-- Replaying a list of Deltas, oldest first, each on the buffer left by the
previous one (the in-memory counterpart of what `Save` does through
`IterateDeltas`). -/
def applyDeltas : List Delta → List Byte → Option (List Byte)
  | [], buffer => some buffer
  | d :: ds, buffer =>
    match DeltaToBuffer d buffer with
    | none => none
    | some b => applyDeltas ds b

/-! ## `io.Reader`, callbacks and `ReaderToDeltas` (file.go, lines 41-63) -/

/-- What one call `reader.Read(buffer)` returns: the bytes it stored in
`buffer[:count]` (so `count` is `data.length`) and the error. -/
structure ReadResult where
  data : List Byte
  err : Option Error
  deriving DecidableEq

/-- An `io.Reader` as a state machine; `Read st n` is one call with a buffer
of `n` bytes. -/
structure Reader (ρ : Type) where
  Read : ρ → Nat → ReadResult × ρ

/-- The `callback func(*Delta) error` argument, a closure over state `κ`. -/
abbrev Callback (κ : Type) := κ → Delta → Option Error × κ

/-- Observable steps of a scan: a call of `reader.Read` with what it
returned, a call of `callback` with its argument and what it returned. -/
inductive Event where
  | read (r : ReadResult)
  | call (d : Delta) (err : Option Error)
  deriving DecidableEq

/-- How a Go function call ends. -/
inductive Exit where
  | returned (err : Option Error)
  | panicked
  deriving DecidableEq

/-- A finished scan: how it ended, the callback's state, and the calls it
made, oldest first. -/
structure Run (κ : Type) where
  exit : Exit
  cb : κ
  trace : List Event

/-- The `for` loop of `ReaderToDeltas`; `offset` is the local `var offset int`.
`none` means that `fuel` iterations were not enough to leave the loop. -/
def readLoop {ρ κ : Type} (reader : Reader ρ) (max : Nat) (callback : Callback κ) :
    Nat → ρ → κ → Int → Option (Run κ)
  | 0, _, _, _ => none
  | fuel + 1, st, k, offset =>
    let step := reader.Read st max
    let res := step.1
    match res.err with
    | some e =>
      if e = Error.EOF then some ⟨Exit.returned none, k, [Event.read res]⟩
      else some ⟨Exit.returned (some e), k, [Event.read res]⟩
    | none =>
      -- `buffer[:count]` on a buffer of `max` bytes
      if max < res.data.length then some ⟨Exit.panicked, k, [Event.read res]⟩
      else
        let d : Delta := ⟨uint64 offset, [], res.data⟩
        let called := callback k d
        match called.1 with
        | some e =>
          some ⟨Exit.returned (some e), called.2, [Event.read res, Event.call d (some e)]⟩
        | none =>
          (readLoop reader max callback fuel step.2 called.2
              (int64 (offset + res.data.length))).map
            fun run => ⟨run.exit, run.cb, Event.read res :: Event.call d none :: run.trace⟩

/-- Embedding of `ReaderToDeltas`: `make([]byte, max)` (a panic when `max` is
not a valid length), then the loop from `offset = 0`. -/
def ReaderToDeltas {ρ κ : Type} (reader : Reader ρ) (max : Nat) (callback : Callback κ)
    (fuel : Nat) (st : ρ) (k : κ) : Option (Run κ) :=
  if maxInt < max then some ⟨Exit.panicked, k, []⟩
  else readLoop reader max callback fuel st k 0

/-- The reader of `strings.NewReader(s)`: the state is the unread part; at the
end `Read` returns `0, io.EOF`, before it `Read` copies as much as fits. -/
def stringsReader : Reader (List Byte) where
  Read := fun s n =>
    if s.length = 0 then (⟨[], some Error.EOF⟩, s)
    else (⟨s.take n, none⟩, s.drop n)

/-- The reader of an `*os.File` on a regular file: a call with an empty buffer
returns `0, nil` without reading; any other call is as for `stringsReader`. -/
def fileReader : Reader (List Byte) where
  Read := fun s n =>
    if n = 0 then (⟨[], none⟩, s) else stringsReader.Read s n

/-- A finite source that may return short reads: while bytes are unread, a
call with a buffer of `n` bytes returns the next `min (pick s n) n` of them
and no error (`pick s n` is how many the source has ready, `s` being the
unread part); at the end it returns `0, io.EOF`. -/
def shortReader (pick : List Byte → Nat → Nat) : Reader (List Byte) where
  Read := fun s n =>
    if s.length = 0 then (⟨[], some Error.EOF⟩, s)
    else (⟨s.take (min (pick s n) n), none⟩, s.drop (min (pick s n) n))

/-- A reader that replays a given list of results, one per call, and reports
`0, io.EOF` once the list is used up. -/
def scriptReader : Reader (List ReadResult) where
  Read := fun script _ =>
    match script with
    | [] => (⟨[], some Error.EOF⟩, [])
    | r :: rest => (r, rest)

/-- The callback of the tests: `got = append(got, d); return nil`. -/
def collect : Callback (List Delta) := fun got d => (none, got ++ [d])

/-- The Deltas handed to the callback, in order, read off a trace. -/
def emitted : List Event → List Delta
  | [] => []
  | Event.read _ :: tr => emitted tr
  | Event.call d _ :: tr => d :: emitted tr

/-- The number of calls of `reader.Read` in a trace. -/
def readCount : List Event → Nat
  | [] => 0
  | Event.read _ :: tr => readCount tr + 1
  | Event.call _ _ :: tr => readCount tr

/-- The Deltas that a source holding `s` is cut into, `offset` bytes having
been read before: the specification side of the scan (`fuel` bounds the
number of chunks). -/
def chunkDeltas (max : Nat) : Nat → Nat → List Byte → List Delta
  | 0, _, _ => []
  | fuel + 1, offset, s =>
    if s.length = 0 then []
    else ⟨offset, [], s.take max⟩ :: chunkDeltas max fuel (offset + (s.take max).length) (s.drop max)

/-- The Deltas for a list of chunks, `offset` bytes having been read before
the first of them. -/
def deltasOf : Nat → List (List Byte) → List Delta
  | _, [] => []
  | offset, c :: cs => ⟨offset, [], c⟩ :: deltasOf (offset + c.length) cs

/-- The steps of a scan whose reads return the given chunks without error and
whose callback returns `nil` for each, `offset` bytes having been read
before: a read and a call for every chunk, in order. -/
def stepsOf : Nat → List (List Byte) → List Event
  | _, [] => []
  | offset, c :: cs =>
    Event.read ⟨c, none⟩ :: Event.call ⟨offset, [], c⟩ none :: stepsOf (offset + c.length) cs

/-- The state of a callback after it was invoked on each Delta of a list in
turn. -/
def feed {κ : Type} (callback : Callback κ) : κ → List Delta → κ
  | k, [] => k
  | k, d :: ds => feed callback (callback k d).2 ds

/-- The callback, invoked on each Delta of a list in turn, returns `nil` every
time. -/
def accepts {κ : Type} (callback : Callback κ) : κ → List Delta → Bool
  | _, [] => true
  | k, d :: ds => (callback k d).1.isNone && accepts callback (callback k d).2 ds

/-- A callback that keeps the Deltas it is given and returns an error for
every Delta whose `Offset` is `limit` or more. -/
def rejectFrom (limit : Nat) : Callback (List Delta) := fun got d =>
  (if limit ≤ d.Offset then some (Error.other "full") else none, got ++ [d])

/-- The number of bytes in the first `i` chunks of a list of chunks. -/
def bytesBefore (chunks : List (List Byte)) (i : Nat) : Nat :=
  ((chunks.take i).map List.length).sum

/-- The error that a step of a scan came back with. -/
def Event.err : Event → Option Error
  | Event.read r => r.err
  | Event.call _ e => e

/-- The step is a read that reported `io.EOF`. -/
def Event.isEOF : Event → Bool
  | Event.read r => r.err == some Error.EOF
  | Event.call _ _ => false

/-! ## The file behind `DeltaToPath` -/

/-- A run of `n` zero bytes, what a file reads as where nothing was written. -/
def zeros (n : Nat) : List Byte := List.replicate n 0

/-- Method `(*os.File).ReadAt(b, off)` for `len(b) = n` on a file holding `file`:
the bytes read and the error (`io.EOF` when fewer than `n` bytes were left, an
error for a negative offset, `nil` for a complete read, also of `0` bytes). -/
def ReadAt (file : List Byte) (n : Nat) (off : Int) : List Byte × Option Error :=
  if off < 0 then ([], some (Error.other "negative offset"))
  else
    let got := (file.drop off.toNat).take n
    if got.length < n then (got, some Error.EOF) else (got, none)

/-- Method `(*os.File).WriteAt(b, off)`: the count, the error and the file
afterwards. Writing past the end leaves a hole of zero bytes; writing nothing
changes nothing. -/
def WriteAt (file : List Byte) (b : List Byte) (off : Int) : Nat × Option Error × List Byte :=
  if off < 0 then (0, some (Error.other "negative offset"), file)
  else if b.length = 0 then (0, none, file)
  else
    (b.length, none,
      (file ++ zeros (off.toNat - file.length)).take off.toNat ++ b
        ++ file.drop (off.toNat + b.length))

/-- Method `(*os.File).Truncate(size)`: the error and the file afterwards
(cut, or extended with zero bytes). -/
def Truncate (file : List Byte) (size : Int) : Option Error × List Byte :=
  if size < 0 then (some (Error.other "invalid argument"), file)
  else (none, (file ++ zeros (size.toNat - file.length)).take size.toNat)

/-! ## `DeltaToPath` (file.go, lines 95-124) -/

/-- Embedding of `DeltaToPath` on a file that `os.OpenFile` and `Stat` could
open and measure: how the call ends and what the file holds afterwards. -/
def DeltaToPath (delta : Delta) (file : List Byte) : Exit × List Byte :=
  let size : Int := file.length
  let offset := uint64 (delta.Offset + delta.Remove.length)
  let remaining := uint64 (uint64 size - offset)
  -- `make([]byte, remaining)`
  if maxInt < remaining then (Exit.panicked, file)
  else
    let rd := ReadAt file remaining (int64 offset)
    if rd.2 ≠ none then (Exit.returned rd.2, file)
    else if rd.1.length ≠ remaining then
      (Exit.returned (some (Error.other "Could not read remaining")), file)
    else
      let buffer := rd.1 ++ zeros (remaining - rd.1.length)
      let w1 := WriteAt file delta.Add (int64 delta.Offset)
      if w1.2.1 ≠ none then (Exit.returned w1.2.1, w1.2.2)
      else if w1.1 ≠ delta.Add.length then
        (Exit.returned (some (Error.other "Could not write addition")), w1.2.2)
      else
        let w2 := WriteAt w1.2.2 buffer (int64 (int64 delta.Offset + int64 delta.Add.length))
        if w2.2.1 ≠ none then (Exit.returned w2.2.1, w2.2.2)
        else if w2.1 ≠ remaining then
          (Exit.returned (some (Error.other "Could not write remaining")), w2.2.2)
        else
          let tr := Truncate w2.2.2
            (int64 (int64 (int64 delta.Offset + int64 delta.Add.length) + int64 remaining))
          (Exit.returned tr.1, tr.2)

/-- The replay of `Save` on one destination file (lab.go, lines 272-274):
`IterateDeltas` calls `DeltaToPath` for each Delta of the chain, oldest first,
and stops at the first call that does not return `nil`. -/
def replayToPath : List Delta → List Byte → Exit × List Byte
  | [], file => (Exit.returned none, file)
  | d :: ds, file =>
    let applied := DeltaToPath d file
    if applied.1 = Exit.returned none then replayToPath ds applied.2 else applied

/-! ## `PathToDeltas` (file.go, lines 28-39) -/

/-- Constant `MAX_DELTA_LENGTH`, 8Mb. -/
def MAX_DELTA_LENGTH : Nat := 8 * 1024 * 1024

/-- Embedding of `PathToDeltas`; the file at `path` is given by what it holds,
`none` when `os.Open` fails. A file of `n` bytes is given `n + 1` iterations. -/
def PathToDeltas {κ : Type} (content : Option (List Byte)) (max : Nat) (callback : Callback κ)
    (k : κ) : Option (Run κ) :=
  match content with
  | none => some ⟨Exit.returned (some (Error.other "open")), k, []⟩
  | some s => ReaderToDeltas fileReader max callback (s.length + 1) s k

/-! ## `WriteProto` and `CreateFromPaths` (lab.go, lines 137-192 and 309-336) -/

/-- A chain: `Lab-Path-<experiment id>` or `Lab-File-<record hash>`. -/
inductive Channel where
  | path (experimentId : String)
  | file (recordHash : Nat)
  deriving DecidableEq

/-- A record payload: message `Path` or message `Delta`. -/
inductive Payload where
  | path (segments : List String)
  | delta (d : Delta)
  deriving DecidableEq

/-- What the create loop acts on: the records written so far (oldest first),
the number of `WriteProto` calls made, and the regular files visited (the
`log.Println(path, ...)` lines). -/
structure Node where
  records : List (Channel × Payload)
  writes : Nat
  visited : List (List String)
  deriving DecidableEq

/-- What `WriteProto` returns, and the node afterwards. The hash of a record
is modelled by the number of the call that wrote it. -/
structure Written where
  hash : Nat
  err : Option Error
  node : Node

/-- Function `WriteProto` as a fallible operation: call number `i` (from 0)
fails, writing nothing, when `fails i`. -/
def WriteProto (fails : Nat → Bool) (node : Node) (channel : Channel) (protobuf : Payload) :
    Written :=
  if fails node.writes then
    ⟨0, some (Error.other "write"), { node with writes := node.writes + 1 }⟩
  else
    ⟨node.writes, none,
      { node with records := node.records ++ [(channel, protobuf)], writes := node.writes + 1 }⟩

/-- One visit of `filepath.Walk`: the path (already split at the separator),
what `info` says, the `err` argument, and what the file holds (`none` when it
cannot be opened). -/
structure WalkEntry where
  path : List String
  isDir : Bool
  isSymlink : Bool
  err : Option Error
  content : Option (List Byte)
  deriving DecidableEq

/-- The function literal passed to `filepath.Walk` in `CreateFromPaths`
(lab.go, lines 154-182). `none`: the visit does not return normally. -/
def walkFn (fails : Nat → Bool) (p : Channel) (node : Node) (entry : WalkEntry) :
    Option (Option Error × Node) :=
  match entry.err with
  | some err => some (some err, node)
  | none =>
    if entry.isDir then some (none, node)
    else if entry.isSymlink then some (none, node)
    else
      let node := { node with visited := node.visited ++ [entry.path] }
      let w := WriteProto fails node p (Payload.path entry.path)
      match w.err with
      | some _ => some (none, w.node)
      | none =>
        let file := Channel.file w.hash
        let callback : Callback Node := fun n d =>
          let wd := WriteProto fails n file (Payload.delta d)
          (wd.err, wd.node)
        match PathToDeltas entry.content MAX_DELTA_LENGTH callback w.node with
        | none => none
        | some run =>
          match run.exit with
          | Exit.panicked => none
          | Exit.returned err => some (err, run.cb)

/-- Function `filepath.Walk` over the entries it visits, in order: it stops at
the first error the function returns and returns it (the function of
`CreateFromPaths` never returns `filepath.SkipDir` of its own). -/
def Walk (fn : Node → WalkEntry → Option (Option Error × Node)) :
    List WalkEntry → Node → Option (Option Error × Node)
  | [], node => some (none, node)
  | entry :: rest, node =>
    match fn node entry with
    | none => none
    | some (some err, node1) => some (some err, node1)
    | some (none, node1) => Walk fn rest node1

/-- Type `Experiment`. -/
structure Experiment where
  ID : String
  Path : Channel
  deriving DecidableEq

/-- The `for _, path := range paths` loop of `CreateFromPaths`. -/
def createLoop (fails : Nat → Bool) (p : Channel) :
    List (List WalkEntry) → Node → Option (Option Error × Node)
  | [], node => some (none, node)
  | walk :: rest, node =>
    match Walk (walkFn fails p) walk node with
    | none => none
    | some (some err, node1) => some (some err, node1)
    | some (none, node1) => createLoop fails p rest node1

/-- Embedding of `CreateFromPaths` for the generated identifier `id`: the
Experiment and error it returns, and the node afterwards. -/
def CreateFromPaths (fails : Nat → Bool) (id : String) (paths : List (List WalkEntry))
    (node : Node) : Option (Option Experiment × Option Error × Node) :=
  let p := Channel.path id
  match createLoop fails p paths node with
  | none => none
  | some (some err, node1) => some (none, some err, node1)
  | some (none, node1) => some (some ⟨id, p⟩, none, node1)

/-! ## Data of the tests -/

/-- The bytes of "foobar". -/
def foobar : List Byte := [102, 111, 111, 98, 97, 114]

/-- The bytes of "blah". -/
def blah : List Byte := [98, 108, 97, 104]

/-- A regular file at `name` holding `content`. -/
def regularFile (name : String) (content : List Byte) : WalkEntry :=
  ⟨[name], false, false, none, some content⟩

/-! ## Machine integers: lemmas -/

theorem uint64_of_lt (n : Nat) (h : n < 2 ^ 64) : uint64 (n : Int) = n := by
  unfold uint64
  omega

theorem int64_of_le (n : Nat) (h : n ≤ maxInt) : int64 (n : Int) = n := by
  unfold int64
  unfold maxInt at h
  omega

/-! ## `DeltaToBuffer`: properties -/

/-- What `DeltaToBuffer` returns, for every input. -/
theorem DeltaToBuffer_eq (delta : Delta) (buffer : List Byte) :
    DeltaToBuffer delta buffer =
      some ((if delta.Offset ≤ buffer.length then buffer.take delta.Offset else [])
        ++ delta.Add
        ++ (if uint64 (delta.Offset + delta.Remove.length) < buffer.length
            then buffer.drop (uint64 (delta.Offset + delta.Remove.length)) else [])) := by
  unfold DeltaToBuffer sliceTo sliceFrom
  by_cases h1 : delta.Offset ≤ buffer.length
  · by_cases h2 : uint64 (delta.Offset + delta.Remove.length) < buffer.length
    · simp [h1, h2, Nat.le_of_lt h2]
    · simp [h1, h2]
  · by_cases h2 : uint64 (delta.Offset + delta.Remove.length) < buffer.length
    · simp [h1, h2, Nat.le_of_lt h2]
    · simp [h1, h2]

/-- The six cases of `TestDeltaToBuffer`. -/
theorem TestDeltaToBuffer_cases :
    DeltaToBuffer ⟨0, [], []⟩ foobar = some foobar
    ∧ DeltaToBuffer ⟨0, [102, 111, 111], []⟩ foobar = some [98, 97, 114]
    ∧ DeltaToBuffer ⟨0, foobar, []⟩ foobar = some []
    ∧ DeltaToBuffer ⟨6, [], blah⟩ foobar = some (foobar ++ blah)
    ∧ DeltaToBuffer ⟨3, [], blah⟩ foobar = some ([102, 111, 111] ++ blah ++ [98, 97, 114])
    ∧ DeltaToBuffer ⟨3, [98, 97, 114], blah⟩ foobar = some ([102, 111, 111] ++ blah) := by
  decide

/-- C2, as stated, fails: a pure append one byte beyond the end of "foobar"
returns the added bytes alone, not "foobar" followed by them. -/
theorem DeltaToBuffer_append_beyond_drops_buffer :
    DeltaToBuffer ⟨7, [], blah⟩ foobar = some blah
    ∧ DeltaToBuffer ⟨7, [], blah⟩ foobar ≠
        some (foobar.take (min 7 foobar.length) ++ blah
          ++ foobar.drop (min (7 + ([] : List Byte).length) foobar.length)) := by
  decide

/-- C2, amended: `DeltaToBuffer` returns `P ++ Add ++ buffer[hi:]` where `hi` is
`Offset + len(Remove)` (reduced modulo `2^64`) clamped to `len(buffer)`, and
`P` is `buffer[0:Offset]` when `Offset <= len(buffer)` and empty otherwise. -/
theorem DeltaToBuffer_clamps_tail_only (delta : Delta) (buffer : List Byte) :
    DeltaToBuffer delta buffer =
      some ((if delta.Offset ≤ buffer.length then buffer.take delta.Offset else [])
        ++ delta.Add
        ++ buffer.drop (min (uint64 (delta.Offset + delta.Remove.length)) buffer.length)) := by
  rw [DeltaToBuffer_eq]
  by_cases h2 : uint64 (delta.Offset + delta.Remove.length) < buffer.length
  · simp [h2, Nat.min_eq_left (Nat.le_of_lt h2)]
  · simp [h2, Nat.min_eq_right (Nat.le_of_not_lt h2)]

theorem DeltaToBuffer_in_range (delta : Delta) (buffer : List Byte)
    (hlen : buffer.length ≤ maxInt)
    (h : delta.Offset + delta.Remove.length ≤ buffer.length) :
    DeltaToBuffer delta buffer =
      some (buffer.take delta.Offset ++ delta.Add
        ++ buffer.drop (delta.Offset + delta.Remove.length)) := by
  have hidx : uint64 (delta.Offset + delta.Remove.length)
      = delta.Offset + delta.Remove.length := by
    have := uint64_of_lt (delta.Offset + delta.Remove.length) (by unfold maxInt at hlen; omega)
    simpa using this
  rw [DeltaToBuffer_eq, hidx]
  have h1 : delta.Offset ≤ buffer.length := by omega
  by_cases h2 : delta.Offset + delta.Remove.length < buffer.length
  · simp [h1, h2]
  · have h3 : buffer.length ≤ delta.Offset + delta.Remove.length := by omega
    simp [h1, h2, List.drop_eq_nil_of_le h3]

/-- C6: when `Offset + len(Remove) <= len(buffer)`, `DeltaToBuffer` returns
`buffer[:Offset] ++ Add ++ buffer[Offset+len(Remove):]`. -/
theorem DeltaToBuffer_within_buffer (delta : Delta) (buffer : List Byte)
    (hlen : buffer.length ≤ maxInt)
    (h : delta.Offset + delta.Remove.length ≤ buffer.length) :
    DeltaToBuffer delta buffer =
      some (buffer.take delta.Offset ++ delta.Add
        ++ buffer.drop (delta.Offset + delta.Remove.length)) := by
  have hlt : delta.Offset + delta.Remove.length < 2 ^ 64 := by
    unfold maxInt at hlen; omega
  have hidx : uint64 (delta.Offset + delta.Remove.length)
      = delta.Offset + delta.Remove.length := by
    have := uint64_of_lt (delta.Offset + delta.Remove.length) hlt
    simpa using this
  rw [DeltaToBuffer_eq, hidx, if_pos (show delta.Offset ≤ buffer.length by omega)]
  by_cases h2 : delta.Offset + delta.Remove.length < buffer.length
  · rw [if_pos h2]
  · rw [if_neg h2, List.drop_eq_nil_of_le (Nat.le_of_not_lt h2)]

/-- C6 at the Replace case of the tests: "foobar", offset 3, three bytes
removed, "blah" added, gives "fooblah". -/
theorem DeltaToBuffer_within_buffer_witness :
    (foobar.length ≤ maxInt ∧ 3 + ([98, 97, 114] : List Byte).length ≤ foobar.length)
    ∧ DeltaToBuffer ⟨3, [98, 97, 114], blah⟩ foobar
      = some (foobar.take 3 ++ blah ++ foobar.drop (3 + ([98, 97, 114] : List Byte).length)) :=
  ⟨by decide, DeltaToBuffer_within_buffer ⟨3, [98, 97, 114], blah⟩ foobar (by decide) (by decide)⟩

/-- C8: `DeltaToBuffer` returns a buffer for every Delta and every buffer, the
index `Offset + len(Remove)` being reduced modulo `2^64`: neither slice
expression in it is ever out of range. -/
theorem DeltaToBuffer_never_panics (delta : Delta) (buffer : List Byte) :
    ∃ result, DeltaToBuffer delta buffer = some result :=
  ⟨_, DeltaToBuffer_eq delta buffer⟩

/-! ## The read loop, one iteration at a time -/

theorem readLoop_read_error {ρ κ : Type} (reader : Reader ρ) (max : Nat) (callback : Callback κ)
    (fuel : Nat) (st : ρ) (k : κ) (offset : Int) (e : Error)
    (h : (reader.Read st max).1.err = some e) :
    readLoop reader max callback (fuel + 1) st k offset =
      some ⟨Exit.returned (if e = Error.EOF then none else some e), k,
        [Event.read (reader.Read st max).1]⟩ := by
  rw [readLoop]
  simp only [h]
  by_cases he : e = Error.EOF
  · simp [he]
  · simp [he]

theorem readLoop_callback_error {ρ κ : Type} (reader : Reader ρ) (max : Nat)
    (callback : Callback κ) (fuel : Nat) (st : ρ) (k : κ) (offset : Int) (e : Error)
    (h : (reader.Read st max).1.err = none)
    (hlen : (reader.Read st max).1.data.length ≤ max)
    (hc : (callback k ⟨uint64 offset, [], (reader.Read st max).1.data⟩).1 = some e) :
    readLoop reader max callback (fuel + 1) st k offset =
      some ⟨Exit.returned (some e),
        (callback k ⟨uint64 offset, [], (reader.Read st max).1.data⟩).2,
        [Event.read (reader.Read st max).1,
          Event.call ⟨uint64 offset, [], (reader.Read st max).1.data⟩ (some e)]⟩ := by
  rw [readLoop]
  simp only [h, hc]
  rw [if_neg (by omega)]

theorem readLoop_continue {ρ κ : Type} (reader : Reader ρ) (max : Nat) (callback : Callback κ)
    (fuel : Nat) (st : ρ) (k : κ) (offset : Int)
    (h : (reader.Read st max).1.err = none)
    (hlen : (reader.Read st max).1.data.length ≤ max)
    (hc : (callback k ⟨uint64 offset, [], (reader.Read st max).1.data⟩).1 = none) :
    readLoop reader max callback (fuel + 1) st k offset =
      (readLoop reader max callback fuel (reader.Read st max).2
          (callback k ⟨uint64 offset, [], (reader.Read st max).1.data⟩).2
          (int64 (offset + (reader.Read st max).1.data.length))).map
        fun run => ⟨run.exit, run.cb,
          Event.read (reader.Read st max).1
            :: Event.call ⟨uint64 offset, [], (reader.Read st max).1.data⟩ none :: run.trace⟩ := by
  rw [readLoop]
  simp only [h, hc]
  rw [if_neg (by omega)]

theorem stringsReader_read_end (s : List Byte) (n : Nat) (h : s.length = 0) :
    stringsReader.Read s n = (⟨[], some Error.EOF⟩, s) := by
  unfold stringsReader
  simp only [h, if_true]

theorem stringsReader_read_data (s : List Byte) (n : Nat) (h : s.length ≠ 0) :
    stringsReader.Read s n = (⟨s.take n, none⟩, s.drop n) := by
  unfold stringsReader
  simp only [h, if_false]

theorem readLoop_strings (max : Nat) (hmax : 0 < max) :
    ∀ (fuel : Nat) (s : List Byte) (acc : List Delta) (o : Nat),
      s.length < fuel → o + s.length ≤ maxInt →
      ∃ run, readLoop stringsReader max collect fuel s acc (o : Int) = some run
        ∧ run.exit = Exit.returned none
        ∧ run.cb = acc ++ chunkDeltas max fuel o s
        ∧ emitted run.trace = chunkDeltas max fuel o s := by
  intro fuel
  induction fuel with
  | zero => intro s acc o h; omega
  | succ fuel ih =>
    intro s acc o hfuel hbound
    by_cases hs : s.length = 0
    · refine ⟨⟨Exit.returned none, acc, [Event.read ⟨[], some Error.EOF⟩]⟩, ?_, rfl, ?_, ?_⟩
      · rw [readLoop_read_error _ _ _ _ _ _ _ Error.EOF (by rw [stringsReader_read_end s max hs])]
        rw [stringsReader_read_end s max hs]
        simp
      · simp [chunkDeltas, hs]
      · simp [chunkDeltas, hs, emitted]
    · have hlen : (s.take max).length ≤ max := by simp
      have hpos : 0 < (s.take max).length := by
        simp only [List.length_take]; omega
      have hdrop : (s.drop max).length < fuel := by
        simp only [List.length_drop]; omega
      have hb2 : (o + (s.take max).length) + (s.drop max).length ≤ maxInt := by
        simp only [List.length_drop, List.length_take] at *
        omega
      obtain ⟨run, hrun, hexit, hcb, hem⟩ :=
        ih (s.drop max) (acc ++ [⟨o, [], s.take max⟩]) (o + (s.take max).length) hdrop hb2
      have ho : uint64 (o : Int) = o := uint64_of_lt o (by unfold maxInt at hbound; omega)
      have ho2 : int64 ((o : Int) + ((s.take max).length : Nat))
          = ((o + (s.take max).length : Nat) : Int) := by
        have := int64_of_le (o + (s.take max).length) (by omega)
        simpa using this
      have hread := stringsReader_read_data s max hs
      refine ⟨⟨run.exit, run.cb, Event.read ⟨s.take max, none⟩ ::
          Event.call ⟨o, [], s.take max⟩ none :: run.trace⟩, ?_, hexit, ?_, ?_⟩
      · rw [readLoop_continue _ _ _ _ _ _ _ (by rw [hread]) (by rw [hread]; exact hlen)
          (by rfl)]
        simp only [hread, ho, ho2, collect, hrun, Option.map_some']
      · rw [hcb]; simp [chunkDeltas, hs]
      · simp [emitted, hem, chunkDeltas, hs]

/-! ## Chunks of a source -/

theorem DeltaToBuffer_insert_at (P B c : List Byte) (h : P.length < 2 ^ 64) :
    DeltaToBuffer ⟨P.length, [], c⟩ (P ++ B) = some (P ++ c ++ B) := by
  rw [DeltaToBuffer_eq]
  have hidx : uint64 ((P.length : Int) + (([] : List Byte).length : Nat)) = P.length := by
    have := uint64_of_lt P.length h
    simpa using this
  simp only [hidx]
  by_cases hB : B.length = 0
  · have : B = [] := List.length_eq_zero.mp hB
    subst this
    simp
  · have hlt : P.length < (P ++ B).length := by
      simp only [List.length_append]; omega
    simp [hlt]

theorem applyDeltas_chunkDeltas (max : Nat) (hmax : 0 < max) :
    ∀ (fuel : Nat) (s P B : List Byte),
      s.length < fuel → P.length + s.length < 2 ^ 64 →
      applyDeltas (chunkDeltas max fuel P.length s) (P ++ B) = some (P ++ s ++ B) := by
  intro fuel
  induction fuel with
  | zero => intro s P B h; omega
  | succ fuel ih =>
    intro s P B hfuel hbound
    by_cases hs : s.length = 0
    · have : s = [] := List.length_eq_zero.mp hs
      subst this
      simp [chunkDeltas, applyDeltas]
    · have hdrop : (s.drop max).length < fuel := by
        simp only [List.length_drop]; omega
      have hb2 : (P ++ s.take max).length + (s.drop max).length < 2 ^ 64 := by
        simp only [List.length_drop, List.length_take, List.length_append] at *
        omega
      have := ih (s.drop max) (P ++ s.take max) B hdrop hb2
      simp only [chunkDeltas, hs, if_false, applyDeltas]
      rw [DeltaToBuffer_insert_at P B (s.take max) (by omega)]
      simp only [List.length_append] at this
      simp only [this]
      simp

theorem ceil_div_step (n max : Nat) (hmax : 0 < max) (hn : n ≠ 0) :
    (n + max - 1) / max = (n - max + max - 1) / max + 1 := by
  by_cases h : n < max
  · have h1 : n - max = 0 := by omega
    rw [h1]
    have h2 : (0 + max - 1) / max = 0 := Nat.div_eq_of_lt (by omega)
    rw [h2]
    have h3 : (n + max - 1) / max = 1 := by
      apply Nat.div_eq_of_lt_le
      · omega
      · omega
    rw [h3]
  · have h1 : n + max - 1 = (n - max + max - 1) + max := by omega
    rw [h1, Nat.add_div_right _ hmax]

theorem chunkDeltas_eq_range (max : Nat) (hmax : 0 < max) :
    ∀ (fuel : Nat) (o : Nat) (s : List Byte), s.length < fuel →
      chunkDeltas max fuel o s =
        (List.range ((s.length + max - 1) / max)).map
          (fun k => ⟨o + k * max, [], slice s (k * max) (min ((k + 1) * max) s.length)⟩) := by
  intro fuel
  induction fuel with
  | zero => intro o s h; omega
  | succ fuel ih =>
    intro o s hfuel
    by_cases hs : s.length = 0
    · have h0 : (s.length + max - 1) / max = 0 := by
        rw [hs]; exact Nat.div_eq_of_lt (by omega)
      rw [h0]
      simp [chunkDeltas, hs]
    · have hdrop : (s.drop max).length < fuel := by
        simp only [List.length_drop]; omega
      simp only [chunkDeltas, hs, if_false]
      rw [ih _ _ hdrop, ceil_div_step s.length max hmax hs, List.range_succ_eq_map]
      simp only [List.map_cons, List.map_map, List.length_drop]
      congr 1
      · simp [slice]
      · apply List.map_congr_left
        intro k hk
        have hk2 := List.mem_range.mp hk
        have hpos : 0 < (s.length - max + max - 1) / max := by omega
        have hgt : max < s.length := by
          by_contra hcon
          have h1 : s.length - max = 0 := by omega
          rw [h1] at hpos
          have h2 : (0 + max - 1) / max = 0 := Nat.div_eq_of_lt (by omega)
          omega
        have hmin : (List.take max s).length = max := by
          simp only [List.length_take]; omega
        simp only [Function.comp, hmin, slice]
        rw [List.take_drop, List.drop_drop]
        have e1 : max + (k + 1) * max ⊓ (s.length - max) = (k.succ + 1) * max ⊓ s.length := by
          have : (k.succ + 1) * max = max + (k + 1) * max := by
            simp only [Nat.succ_eq_add_one]; ring
          rw [this]; omega
        have e2 : max + k * max = k.succ * max := by
          simp only [Nat.succ_eq_add_one]; ring
        have e3 : o + max + k * max = o + k.succ * max := by omega
        rw [e1, e2, e3]

/-! ## `ReaderToDeltas` over a source that fills every read -/

/-- C5: over a source holding the `n` bytes of `S` that fills every read,
`ReaderToDeltas` returns `nil` after invoking the callback `ceil(n / max)`
times; invocation `k` gets `Offset = k * max`, empty `Remove` and
`Add = S[k*max : min((k+1)*max, n)]`. -/
theorem ReaderToDeltas_chunks (S : List Byte) (max fuel : Nat)
    (hmax : 0 < max) (hbuf : max ≤ maxInt) (hS : S.length ≤ maxInt) (hfuel : S.length < fuel) :
    ∃ run, ReaderToDeltas stringsReader max collect fuel S [] = some run
      ∧ run.exit = Exit.returned none
      ∧ emitted run.trace = run.cb
      ∧ run.cb.length = (S.length + max - 1) / max
      ∧ run.cb = (List.range ((S.length + max - 1) / max)).map
          (fun k => ⟨k * max, [], slice S (k * max) (min ((k + 1) * max) S.length)⟩) := by
  obtain ⟨run, hrun, hexit, hcb, hem⟩ :=
    readLoop_strings max hmax fuel S [] 0 hfuel (by omega)
  have hform := chunkDeltas_eq_range max hmax fuel 0 S hfuel
  simp only [Nat.zero_add] at hform
  refine ⟨run, ?_, hexit, ?_, ?_, ?_⟩
  · unfold ReaderToDeltas
    rw [if_neg (by omega)]
    exact hrun
  · rw [hem, hcb]; simp
  · rw [hcb, hform]; simp
  · rw [hcb, hform]; simp

/-- C5 on "foobarfoobar" with chunks of 10 bytes: two Deltas, "foobarfoob" at
offset 0 and "ar" at offset 10. -/
theorem ReaderToDeltas_chunks_witness :
    (0 < 10 ∧ 10 ≤ maxInt ∧ (foobar ++ foobar).length ≤ maxInt ∧ (foobar ++ foobar).length < 13)
    ∧ ∃ run, ReaderToDeltas stringsReader 10 collect 13 (foobar ++ foobar) [] = some run
      ∧ run.exit = Exit.returned none
      ∧ emitted run.trace = run.cb
      ∧ run.cb.length = ((foobar ++ foobar).length + 10 - 1) / 10
      ∧ run.cb = (List.range (((foobar ++ foobar).length + 10 - 1) / 10)).map
          (fun k => ⟨k * 10, [],
            slice (foobar ++ foobar) (k * 10) (min ((k + 1) * 10) (foobar ++ foobar).length)⟩) :=
  ⟨by decide, ReaderToDeltas_chunks (foobar ++ foobar) 10 13 (by decide) (by decide)
    (by decide) (by decide)⟩

/-- The three cases of `TestReaderToDeltas` and the case of `TestPathToDeltas`. -/
theorem TestReaderToDeltas_cases :
    (ReaderToDeltas stringsReader 10 collect 1 [] []).map (fun r => (r.exit, r.cb))
        = some (Exit.returned none, [])
    ∧ (ReaderToDeltas stringsReader 10 collect 7 foobar []).map (fun r => (r.exit, r.cb))
        = some (Exit.returned none, [⟨0, [], foobar⟩])
    ∧ (ReaderToDeltas stringsReader 10 collect 13 (foobar ++ foobar) []).map
          (fun r => (r.exit, r.cb))
        = some (Exit.returned none,
            [⟨0, [], [102, 111, 111, 98, 97, 114, 102, 111, 111, 98]⟩, ⟨10, [], [97, 114]⟩])
    ∧ (PathToDeltas (some blah) 10 collect []).map (fun r => (r.exit, r.cb))
        = some (Exit.returned none, [⟨0, [], blah⟩]) := by
  decide


/-! ## `ReaderToDeltas` over any sequence of reads -/

theorem scriptReader_read_nil (n : Nat) :
    scriptReader.Read [] n = (⟨[], some Error.EOF⟩, []) := rfl

theorem scriptReader_read_cons (r : ReadResult) (rest : List ReadResult) (n : Nat) :
    scriptReader.Read (r :: rest) n = (r, rest) := rfl

theorem readLoop_script_shape {κ : Type} (max : Nat) (callback : Callback κ) :
    ∀ (reads : List ReadResult) (fuel : Nat) (k : κ) (offset : Int),
      (∀ r ∈ reads, r.data.length ≤ max) → reads.length < fuel →
      ∃ run pre last, readLoop scriptReader max callback fuel reads k offset = some run
        ∧ run.trace = pre ++ [last]
        ∧ (∀ e ∈ pre, e.err = none)
        ∧ last.err ≠ none
        ∧ (run.exit = Exit.returned none ↔ last.isEOF = true)
        ∧ (last.isEOF = false → run.exit = Exit.returned last.err) := by
  intro reads
  induction reads with
  | nil =>
    intro fuel k offset _ hfuel
    obtain ⟨fuel, rfl⟩ : ∃ f, fuel = f + 1 := ⟨fuel - 1, by omega⟩
    refine ⟨_, [], Event.read ⟨[], some Error.EOF⟩,
      readLoop_read_error scriptReader max callback fuel [] k offset Error.EOF rfl, ?_⟩
    simp [scriptReader_read_nil, Event.err, Event.isEOF]
  | cons r rest ih =>
    intro fuel k offset hlen hfuel
    obtain ⟨fuel, rfl⟩ : ∃ f, fuel = f + 1 := ⟨fuel - 1, by omega⟩
    have hr : r.data.length ≤ max := hlen r (List.mem_cons_self _ _)
    cases hre : r.err with
    | some e =>
      refine ⟨_, [], Event.read r,
        readLoop_read_error scriptReader max callback fuel (r :: rest) k offset e hre, ?_⟩
      by_cases he : e = Error.EOF
      · simp [scriptReader_read_cons, Event.err, Event.isEOF, hre, he]
      · simp [scriptReader_read_cons, Event.err, Event.isEOF, hre, he]
    | none =>
      cases hc : (callback k ⟨uint64 offset, [], r.data⟩).1 with
      | some e =>
        refine ⟨_, [Event.read r], Event.call ⟨uint64 offset, [], r.data⟩ (some e),
          readLoop_callback_error scriptReader max callback fuel (r :: rest) k offset e hre hr hc,
          ?_⟩
        simp [scriptReader_read_cons, Event.err, Event.isEOF, hre]
      | none =>
        obtain ⟨run, pre, last, hrun, htr, hpre, hlast, hnil, herr⟩ :=
          ih fuel (callback k ⟨uint64 offset, [], r.data⟩).2 (int64 (offset + r.data.length))
            (fun x hx => hlen x (List.mem_cons_of_mem _ hx))
            (by simp only [List.length_cons] at hfuel; omega)
        refine ⟨⟨run.exit, run.cb, Event.read r :: Event.call ⟨uint64 offset, [], r.data⟩ none
            :: run.trace⟩,
          Event.read r :: Event.call ⟨uint64 offset, [], r.data⟩ none :: pre, last, ?_, ?_, ?_,
          hlast, hnil, herr⟩
        · rw [readLoop_continue scriptReader max callback fuel (r :: rest) k offset hre hr hc]
          simp only [scriptReader_read_cons]
          rw [hrun]
          rfl
        · simp [htr]
        · intro e he
          simp only [List.mem_cons] at he
          rcases he with rfl | rfl | he
          · exact hre
          · rfl
          · exact hpre e he

/-- The scan of a source that gives "foobar" and then fails with a disk
error, evaluated: a read of "foobar", its Delta, the failing read, and nothing
after it. -/
theorem ReaderToDeltas_read_error_case :
    (ReaderToDeltas scriptReader 10 collect 4
        [⟨foobar, none⟩, ⟨[], some (Error.other "disk")⟩, ⟨blah, none⟩] []).map
      (fun r => (r.exit, r.cb, r.trace))
    = some (Exit.returned (some (Error.other "disk")), [⟨0, [], foobar⟩],
        [Event.read ⟨foobar, none⟩, Event.call ⟨0, [], foobar⟩ none,
          Event.read ⟨[], some (Error.other "disk")⟩]) := by
  decide

theorem deltasOf_length (chunks : List (List Byte)) :
    ∀ o, (deltasOf o chunks).length = chunks.length := by
  induction chunks with
  | nil => intro o; rfl
  | cons c cs ih => intro o; simp [deltasOf, ih]

theorem deltasOf_getElem? (chunks : List (List Byte)) :
    ∀ (o i : Nat) (h : i < chunks.length),
      (deltasOf o chunks)[i]? = some ⟨o + bytesBefore chunks i, [], chunks[i]⟩ := by
  induction chunks with
  | nil => intro o i h; simp at h
  | cons c cs ih =>
    intro o i h
    cases i with
    | zero => simp [deltasOf, bytesBefore]
    | succ i =>
      have h2 : i < cs.length := by simpa using h
      simp only [deltasOf, List.getElem?_cons_succ, List.getElem_cons_succ]
      rw [ih (o + c.length) i h2]
      simp [bytesBefore, Nat.add_assoc]

theorem deltasOf_add_le (max : Nat) (chunks : List (List Byte))
    (h : ∀ c ∈ chunks, c.length ≤ max) :
    ∀ o, ∀ d ∈ deltasOf o chunks, d.Remove = [] ∧ d.Add.length ≤ max := by
  induction chunks with
  | nil => intro o d hd; simp [deltasOf] at hd
  | cons c cs ih =>
    intro o d hd
    simp only [deltasOf, List.mem_cons] at hd
    rcases hd with rfl | hd
    · exact ⟨rfl, h c (List.mem_cons_self _ _)⟩
    · exact ih (fun x hx => h x (List.mem_cons_of_mem _ hx)) _ d hd

theorem readLoop_script_collect (max : Nat) :
    ∀ (chunks : List (List Byte)) (fuel : Nat) (acc : List Delta) (o : Nat),
      (∀ c ∈ chunks, c.length ≤ max) → o + (chunks.map List.length).sum ≤ maxInt →
      chunks.length < fuel →
      ∃ run, readLoop scriptReader max collect fuel
            (chunks.map (fun c => (⟨c, none⟩ : ReadResult))) acc (o : Int) = some run
        ∧ run.exit = Exit.returned none
        ∧ run.cb = acc ++ deltasOf o chunks
        ∧ emitted run.trace = deltasOf o chunks := by
  intro chunks
  induction chunks with
  | nil =>
    intro fuel acc o _ _ hfuel
    obtain ⟨fuel, rfl⟩ : ∃ f, fuel = f + 1 := ⟨fuel - 1, by omega⟩
    refine ⟨_, readLoop_read_error scriptReader max collect fuel [] acc o Error.EOF rfl, ?_⟩
    simp [deltasOf, emitted, scriptReader_read_nil]
  | cons c cs ih =>
    intro fuel acc o hlen hbound hfuel
    obtain ⟨fuel, rfl⟩ : ∃ f, fuel = f + 1 := ⟨fuel - 1, by omega⟩
    have hc : c.length ≤ max := hlen c (List.mem_cons_self _ _)
    simp only [List.map_cons, List.sum_cons] at hbound
    obtain ⟨run, hrun, hexit, hcb, hem⟩ :=
      ih fuel (acc ++ [⟨o, [], c⟩]) (o + c.length)
        (fun x hx => hlen x (List.mem_cons_of_mem _ hx)) (by omega)
        (by simp only [List.length_cons] at hfuel; omega)
    have ho : uint64 (o : Int) = o := uint64_of_lt o (by unfold maxInt at hbound; omega)
    have ho2 : int64 ((o : Int) + (c.length : Nat)) = ((o + c.length : Nat) : Int) := by
      have := int64_of_le (o + c.length) (by omega)
      simpa using this
    refine ⟨⟨run.exit, run.cb, Event.read ⟨c, none⟩ :: Event.call ⟨o, [], c⟩ none :: run.trace⟩,
      ?_, hexit, ?_, ?_⟩
    · simp only [List.map_cons]
      rw [readLoop_continue scriptReader max collect fuel
        ((⟨c, none⟩ : ReadResult) :: cs.map (fun c => (⟨c, none⟩ : ReadResult))) acc o rfl hc rfl]
      simp only [scriptReader_read_cons, ho, ho2, collect, hrun, Option.map_some']
    · rw [hcb]; simp [deltasOf]
    · simp [emitted, hem, deltasOf]

/-- C10, as stated, fails: a source whose only read returns 0 bytes and no
error, then end-of-stream, has no non-empty chunk, yet one Delta is emitted,
and its `Add` is empty. -/
theorem ReaderToDeltas_emits_empty_chunk :
    ∃ run, ReaderToDeltas scriptReader 10 collect 2 [⟨[], none⟩] [] = some run
      ∧ run.exit = Exit.returned none
      ∧ run.cb = [⟨0, [], []⟩]
      ∧ run.cb.length ≠ ([([] : List Byte)].filter (fun c => c.length ≠ 0)).length
      ∧ ¬ (∀ d ∈ run.cb, 1 ≤ d.Add.length) :=
  ⟨_, rfl, by decide, by decide, by decide, by decide⟩

/-- C10, amended: for reads that all succeed and return at most `max` bytes
each, followed by end-of-stream, `ReaderToDeltas` returns `nil` having emitted
exactly one Delta per read, empty reads included, in read order; Delta `i` has
`Offset` the number of bytes of the reads before it, empty `Remove`, and
`Add` the bytes of read `i`, of length at most `max`. -/
theorem ReaderToDeltas_one_delta_per_read (chunks : List (List Byte)) (max fuel : Nat)
    (hbuf : max ≤ maxInt) (hchunk : ∀ c ∈ chunks, c.length ≤ max)
    (htotal : (chunks.map List.length).sum ≤ maxInt) (hfuel : chunks.length < fuel) :
    ∃ run, ReaderToDeltas scriptReader max collect fuel
          (chunks.map (fun c => (⟨c, none⟩ : ReadResult))) [] = some run
      ∧ run.exit = Exit.returned none
      ∧ emitted run.trace = run.cb
      ∧ run.cb.length = chunks.length
      ∧ (∀ (i : Nat) (h : i < chunks.length),
          run.cb[i]? = some ⟨bytesBefore chunks i, [], chunks[i]⟩)
      ∧ (∀ d ∈ run.cb, d.Remove = [] ∧ d.Add.length ≤ max) := by
  obtain ⟨run, hrun, hexit, hcb, hem⟩ :=
    readLoop_script_collect max chunks fuel [] 0 hchunk (by omega) hfuel
  simp only [List.nil_append] at hcb
  refine ⟨run, ?_, hexit, ?_, ?_, ?_, ?_⟩
  · unfold ReaderToDeltas
    rw [if_neg (by omega)]
    exact hrun
  · rw [hem, hcb]
  · rw [hcb, deltasOf_length]
  · intro i h
    rw [hcb, deltasOf_getElem? chunks 0 i h]
    simp
  · rw [hcb]
    exact deltasOf_add_le max chunks hchunk 0

/-- C10, amended, on the reads "foobar", nothing, "blah" with `max = 10`. -/
theorem ReaderToDeltas_one_delta_per_read_witness :
    (10 ≤ maxInt ∧ (∀ c ∈ [foobar, [], blah], c.length ≤ 10)
      ∧ ([foobar, [], blah].map List.length).sum ≤ maxInt ∧ [foobar, [], blah].length < 4)
    ∧ ∃ run, ReaderToDeltas scriptReader 10 collect 4
          ([foobar, [], blah].map (fun c => (⟨c, none⟩ : ReadResult))) [] = some run
      ∧ run.exit = Exit.returned none
      ∧ emitted run.trace = run.cb
      ∧ run.cb.length = [foobar, [], blah].length
      ∧ (∀ (i : Nat) (h : i < [foobar, [], blah].length),
          run.cb[i]? = some ⟨bytesBefore [foobar, [], blah] i, [], [foobar, [], blah][i]⟩)
      ∧ (∀ d ∈ run.cb, d.Remove = [] ∧ d.Add.length ≤ 10) :=
  ⟨by decide,
    ReaderToDeltas_one_delta_per_read [foobar, [], blah] 10 4 (by decide) (by decide)
      (by decide) (by decide)⟩


/-! ## `DeltaToPath`: properties -/

theorem zeros_zero : zeros 0 = [] := rfl

theorem ReadAt_to_end (file : List Byte) (off : Nat) :
    ReadAt file (file.length - off) (off : Int) = (file.drop off, none) := by
  unfold ReadAt
  have h1 : ¬ ((off : Int) < 0) := by omega
  have h2 : ((file.drop off).take (file.length - off)) = file.drop off :=
    List.take_of_length_le (by simp)
  simp only [h1, if_false, Int.toNat_ofNat, h2, List.length_drop, Nat.lt_irrefl]

theorem WriteAt_within (file b : List Byte) (off : Nat) (h : off ≤ file.length) :
    WriteAt file b (off : Int) = (b.length, none, file.take off ++ b ++ file.drop (off + b.length)) := by
  unfold WriteAt
  have h1 : ¬ ((off : Int) < 0) := by omega
  simp only [h1, if_false, Int.toNat_ofNat]
  by_cases hb : b.length = 0
  · have : b = [] := List.length_eq_zero.mp hb
    subst this
    simp
  · have h3 : off - file.length = 0 := by omega
    simp only [hb, if_false, h3, zeros_zero, List.append_nil]

theorem Truncate_within (file : List Byte) (size : Nat) (h : size ≤ file.length) :
    Truncate file (size : Int) = (none, file.take size) := by
  unfold Truncate
  have h1 : ¬ ((size : Int) < 0) := by omega
  have h3 : size - file.length = 0 := by omega
  simp only [h1, if_false, Int.toNat_ofNat, h3, zeros_zero, List.append_nil]



theorem DeltaToPath_eq (delta : Delta) (file : List Byte)
    (h : delta.Offset + delta.Remove.length ≤ file.length)
    (hsz : file.length + delta.Add.length ≤ maxInt) :
    DeltaToPath delta file =
      (Exit.returned none,
        file.take delta.Offset ++ delta.Add ++ file.drop (delta.Offset + delta.Remove.length)) := by
  have hmi : maxInt = 2 ^ 63 - 1 := rfl
  have b1 : delta.Offset + delta.Remove.length < 2 ^ 64 := by omega
  have b2 : file.length < 2 ^ 64 := by omega
  have b3 : delta.Offset + delta.Remove.length ≤ maxInt := by omega
  have b4 : delta.Offset ≤ maxInt := by omega
  have b5 : delta.Add.length ≤ maxInt := by omega
  have b6 : file.length - (delta.Offset + delta.Remove.length) ≤ maxInt := by omega
  have b7 : delta.Offset + delta.Add.length ≤ maxInt := by omega
  have b8 : delta.Offset + delta.Add.length
      + (file.length - (delta.Offset + delta.Remove.length)) ≤ maxInt := by omega
  have b9 : delta.Offset ≤ file.length := by omega
  clear hmi hsz
  have e_off : uint64 ((delta.Offset : Int) + (delta.Remove.length : Nat))
      = delta.Offset + delta.Remove.length := by
    have := uint64_of_lt (delta.Offset + delta.Remove.length) b1
    simpa using this
  have e_size : uint64 ((file.length : Nat) : Int) = file.length := uint64_of_lt _ b2
  have e_rem : uint64 (((file.length : Nat) : Int) - ((delta.Offset + delta.Remove.length : Nat) : Int))
      = file.length - (delta.Offset + delta.Remove.length) := by
    have := uint64_of_lt (file.length - (delta.Offset + delta.Remove.length))
      (Nat.lt_of_le_of_lt (Nat.sub_le _ _) b2)
    rw [Int.ofNat_sub h] at this
    exact this
  have e_ioff := int64_of_le _ b3
  have e_io := int64_of_le _ b4
  have e_ia := int64_of_le _ b5
  have e_ir := int64_of_le _ b6
  have e_ioa : int64 ((delta.Offset : Int) + (delta.Add.length : Int))
      = ((delta.Offset + delta.Add.length : Nat) : Int) := by
    have := int64_of_le _ b7
    simpa using this
  have e_iend : int64 (((delta.Offset + delta.Add.length : Nat) : Int)
        + ((file.length - (delta.Offset + delta.Remove.length) : Nat) : Int))
      = ((delta.Offset + delta.Add.length
          + (file.length - (delta.Offset + delta.Remove.length)) : Nat) : Int) := by
    have := int64_of_le _ b8
    rw [Int.ofNat_add] at this
    exact this
  unfold DeltaToPath
  simp only [e_off, e_size, e_rem, e_ioff, e_io, e_ia, e_ir, e_ioa, e_iend]
  clear e_off e_size e_rem e_ioff e_io e_ia e_ir e_ioa e_iend
  rw [if_neg (Nat.not_lt.mpr b6), ReadAt_to_end file _, WriteAt_within file delta.Add _ b9]
  simp only [ne_eq, not_true_eq_false, if_false, List.length_drop, Nat.sub_self, zeros_zero,
    List.append_nil]
  have hl1 : delta.Offset + delta.Add.length
      ≤ (file.take delta.Offset ++ delta.Add ++ file.drop (delta.Offset + delta.Add.length)).length := by
    simp only [List.length_append, List.length_take, List.length_drop]
    omega
  rw [WriteAt_within _ _ _ hl1]
  simp only [ne_eq, not_true_eq_false, if_false, List.length_drop]
  have e1 : (file.take delta.Offset ++ delta.Add
        ++ file.drop (delta.Offset + delta.Add.length)).take (delta.Offset + delta.Add.length)
      = file.take delta.Offset ++ delta.Add := by
    apply List.take_left'
    simp only [List.length_append, List.length_take]
    omega
  rw [e1]
  have hl2 : delta.Offset + delta.Add.length + (file.length - (delta.Offset + delta.Remove.length))
      = (file.take delta.Offset ++ delta.Add
          ++ file.drop (delta.Offset + delta.Remove.length)).length := by
    simp only [List.length_append, List.length_take, List.length_drop]
    omega
  rw [Truncate_within _ _ (by
    simp only [List.length_append, List.length_take, List.length_drop]
    omega)]
  simp only [Prod.mk.injEq, true_and]
  exact List.take_left' hl2.symm


/-- The six cases of `TestDeltaToPath`. -/
theorem TestDeltaToPath_cases :
    DeltaToPath ⟨0, [], []⟩ foobar = (Exit.returned none, foobar)
    ∧ DeltaToPath ⟨0, [102, 111, 111], []⟩ foobar = (Exit.returned none, [98, 97, 114])
    ∧ DeltaToPath ⟨0, foobar, []⟩ foobar = (Exit.returned none, [])
    ∧ DeltaToPath ⟨6, [], blah⟩ foobar = (Exit.returned none, foobar ++ blah)
    ∧ DeltaToPath ⟨3, [], blah⟩ foobar
        = (Exit.returned none, [102, 111, 111] ++ blah ++ [98, 97, 114])
    ∧ DeltaToPath ⟨3, [98, 97, 114], blah⟩ foobar
        = (Exit.returned none, [102, 111, 111] ++ blah) := by
  decide

/-- C3 at a Delta that reaches beyond the end of the file: on the file
"foobar", a Delta that removes 7 bytes at offset 0 makes `DeltaToPath` panic
(`remaining`, an unguarded `uint64` difference, wraps around to `2^64 - 1`,
which `make` refuses) and leaves the file as it was, while `DeltaToBuffer`,
which guards the same index, returns the empty buffer. -/
theorem DeltaToPath_fails_beyond_end :
    DeltaToBuffer ⟨0, 0 :: foobar, []⟩ foobar = some []
    ∧ DeltaToPath ⟨0, 0 :: foobar, []⟩ foobar = (Exit.panicked, foobar)
    ∧ ¬ ((DeltaToPath ⟨0, 0 :: foobar, []⟩ foobar).1 = Exit.returned none
        ∧ DeltaToBuffer ⟨0, 0 :: foobar, []⟩ foobar
            = some (DeltaToPath ⟨0, 0 :: foobar, []⟩ foobar).2) := by
  decide

/-- The two patch engines agree within the file: when `Offset + len(Remove)`
does not exceed the size of the file, `DeltaToPath` returns `nil` and leaves the file holding exactly what
`DeltaToBuffer` returns for the same Delta on the file's initial bytes, of
size `Offset + len(Add) + (size - Offset - len(Remove))`. -/
theorem DeltaToPath_agrees_with_DeltaToBuffer (delta : Delta) (file : List Byte)
    (h : delta.Offset + delta.Remove.length ≤ file.length)
    (hsz : file.length + delta.Add.length ≤ maxInt) :
    (DeltaToPath delta file).1 = Exit.returned none
    ∧ DeltaToBuffer delta file = some (DeltaToPath delta file).2
    ∧ (DeltaToPath delta file).2.length
        = delta.Offset + delta.Add.length
          + (file.length - delta.Offset - delta.Remove.length) := by
  have hlen : file.length ≤ maxInt := by omega
  rw [DeltaToPath_eq delta file h hsz, DeltaToBuffer_in_range delta file hlen h]
  refine ⟨rfl, rfl, ?_⟩
  simp only [List.length_append, List.length_take, List.length_drop]
  omega

/-- The agreement of the two patch engines at the Replace case of the tests. -/
theorem DeltaToPath_agrees_with_DeltaToBuffer_witness :
    (3 + ([98, 97, 114] : List Byte).length ≤ foobar.length
      ∧ foobar.length + blah.length ≤ maxInt)
    ∧ (DeltaToPath ⟨3, [98, 97, 114], blah⟩ foobar).1 = Exit.returned none
    ∧ DeltaToBuffer ⟨3, [98, 97, 114], blah⟩ foobar
        = some (DeltaToPath ⟨3, [98, 97, 114], blah⟩ foobar).2
    ∧ (DeltaToPath ⟨3, [98, 97, 114], blah⟩ foobar).2.length
        = 3 + blah.length + (foobar.length - 3 - ([98, 97, 114] : List Byte).length) :=
  ⟨by decide,
    DeltaToPath_agrees_with_DeltaToBuffer ⟨3, [98, 97, 114], blah⟩ foobar (by decide) (by decide)⟩

/-- C7: when `Offset + len(Remove) <= len(B)`, `DeltaToPath` on a file holding
`B` returns `nil` and leaves `B[:Offset] ++ Add ++ B[Offset+len(Remove):]`, a
file of exactly `Offset + len(Add) + (len(B) - Offset - len(Remove))` bytes. -/
theorem DeltaToPath_within_file (delta : Delta) (B : List Byte)
    (h : delta.Offset + delta.Remove.length ≤ B.length)
    (hsz : B.length + delta.Add.length ≤ maxInt) :
    DeltaToPath delta B =
      (Exit.returned none,
        B.take delta.Offset ++ delta.Add ++ B.drop (delta.Offset + delta.Remove.length))
    ∧ (DeltaToPath delta B).2.length
        = delta.Offset + delta.Add.length + (B.length - delta.Offset - delta.Remove.length) := by
  rw [DeltaToPath_eq delta B h hsz]
  refine ⟨rfl, ?_⟩
  simp only [List.length_append, List.length_take, List.length_drop]
  omega

/-- C7 on the file "foobar" with a Delta that removes 6 bytes at offset 0 and
adds nothing: the file becomes empty. -/
theorem DeltaToPath_within_file_witness :
    (0 + foobar.length ≤ foobar.length ∧ foobar.length + ([] : List Byte).length ≤ maxInt)
    ∧ DeltaToPath ⟨0, foobar, []⟩ foobar =
        (Exit.returned none, foobar.take 0 ++ [] ++ foobar.drop (0 + foobar.length))
    ∧ (DeltaToPath ⟨0, foobar, []⟩ foobar).2.length
        = 0 + ([] : List Byte).length + (foobar.length - 0 - foobar.length) :=
  ⟨by decide, DeltaToPath_within_file ⟨0, foobar, []⟩ foobar (by decide) (by decide)⟩

/-! ## `CreateFromPaths`: a failed write of a PathEntry -/

/-- The visit of a regular file whose PathEntry cannot be written returns
`nil`, not the error (lab.go, lines 172-174). -/
theorem walkFn_swallows_write_error (fails : Nat → Bool) (p : Channel) (node : Node)
    (entry : WalkEntry) (herr : entry.err = none) (hdir : entry.isDir = false)
    (hlink : entry.isSymlink = false) (hfail : fails node.writes = true) :
    walkFn fails p node entry =
      some (none, ⟨node.records, node.writes + 1, node.visited ++ [entry.path]⟩) := by
  simp [walkFn, WriteProto, herr, hdir, hlink, hfail]

/-- C4 at a walk over two regular files "a" and "b" where the first call of
`WriteProto` (the PathEntry of "a") fails: `CreateFromPaths` returns an
Experiment and no error, having gone on to visit "b" and written its
PathEntry and its Delta. -/
theorem CreateFromPaths_continues_after_failed_write :
    CreateFromPaths (fun i => i == 0) "x" [[regularFile "a" foobar, regularFile "b" blah]]
        ⟨[], 0, []⟩
      = some (some ⟨"x", Channel.path "x"⟩, none,
          ⟨[(Channel.path "x", Payload.path ["b"]),
              (Channel.file 1, Payload.delta ⟨0, [], blah⟩)],
            3, [["a"], ["b"]]⟩) := by
  decide

/-- For contrast, the same walk where the failing call is the one that
writes the Delta of "a": the error is returned and "b" is not visited. -/
theorem CreateFromPaths_aborts_on_failed_delta_write :
    CreateFromPaths (fun i => i == 1) "x" [[regularFile "a" foobar, regularFile "b" blah]]
        ⟨[], 0, []⟩
      = some (none, some (Error.other "write"),
          ⟨[(Channel.path "x", Payload.path ["a"])], 2, [["a"]]⟩) := by
  decide


/-! ## Replaying a history onto existing content -/

theorem replayToPath_chunkDeltas (max : Nat) (hmax : 0 < max) :
    ∀ (fuel : Nat) (s P B : List Byte),
      s.length < fuel → P.length + s.length + B.length ≤ maxInt →
      replayToPath (chunkDeltas max fuel P.length s) (P ++ B)
        = (Exit.returned none, P ++ s ++ B) := by
  intro fuel
  induction fuel with
  | zero => intro s P B h; omega
  | succ fuel ih =>
    intro s P B hfuel hbound
    by_cases hs : s.length = 0
    · have : s = [] := List.length_eq_zero.mp hs
      subst this
      simp [chunkDeltas, replayToPath]
    · have hdrop : (s.drop max).length < fuel := by
        simp only [List.length_drop]; omega
      have hb2 : (P ++ s.take max).length + (s.drop max).length + B.length ≤ maxInt := by
        simp only [List.length_drop, List.length_take, List.length_append] at *
        omega
      have hin : (⟨P.length, [], s.take max⟩ : Delta).Offset
          + (⟨P.length, [], s.take max⟩ : Delta).Remove.length ≤ (P ++ B).length := by
        simp only [List.length_append, List.length_nil]; omega
      have hsz : (P ++ B).length + (⟨P.length, [], s.take max⟩ : Delta).Add.length ≤ maxInt := by
        simp only [List.length_append, List.length_take] at *
        omega
      have hstep := DeltaToPath_eq ⟨P.length, [], s.take max⟩ (P ++ B) hin hsz
      have hfile : List.take P.length (P ++ B) ++ s.take max
          ++ List.drop (P.length + ([] : List Byte).length) (P ++ B) = (P ++ s.take max) ++ B := by
        simp
      simp only [hfile] at hstep
      have := ih (s.drop max) (P ++ s.take max) B hdrop hb2
      simp only [chunkDeltas, hs, if_false, replayToPath, hstep, if_true]
      simp only [List.length_append] at this
      rw [this]
      simp

/-- C12: the Deltas that `ReaderToDeltas` emits for a source holding `S`,
replayed in order onto an initial content `B`, leave `S ++ B`, with
`DeltaToBuffer` as with `DeltaToPath`; so a second replay onto the file that a
first replay (from the empty file) produced leaves `S ++ S`. -/
theorem replay_prepends (S B : List Byte) (max fuel : Nat)
    (hmax : 0 < max) (hbuf : max ≤ maxInt) (hsize : S.length + B.length ≤ maxInt)
    (hfuel : S.length < fuel) :
    ∃ run, ReaderToDeltas stringsReader max collect fuel S [] = some run
      ∧ run.exit = Exit.returned none
      ∧ applyDeltas run.cb B = some (S ++ B)
      ∧ replayToPath run.cb B = (Exit.returned none, S ++ B)
      ∧ replayToPath run.cb [] = (Exit.returned none, S)
      ∧ (S.length + S.length ≤ maxInt →
          applyDeltas run.cb S = some (S ++ S)
          ∧ replayToPath run.cb (replayToPath run.cb []).2 = (Exit.returned none, S ++ S)) := by
  have hmi : maxInt = 2 ^ 63 - 1 := rfl
  obtain ⟨run, hrun, hexit, hcb, _⟩ :=
    readLoop_strings max hmax fuel S [] 0 hfuel (by omega)
  simp only [List.nil_append] at hcb
  have hbuffer : ∀ C : List Byte, applyDeltas run.cb C = some (S ++ C) := by
    intro C
    have := applyDeltas_chunkDeltas max hmax fuel S [] C hfuel
      (by simp only [List.length_nil]; omega)
    rw [hcb]
    simpa using this
  have hpath : ∀ C : List Byte, S.length + C.length ≤ maxInt →
      replayToPath run.cb C = (Exit.returned none, S ++ C) := by
    intro C hC
    have := replayToPath_chunkDeltas max hmax fuel S [] C hfuel
      (by simp only [List.length_nil]; omega)
    rw [hcb]
    simpa using this
  have hfirst : replayToPath run.cb [] = (Exit.returned none, S) := by
    have := hpath [] (by simp only [List.length_nil]; omega)
    simpa using this
  refine ⟨run, ?_, hexit, hbuffer B, hpath B hsize, hfirst, ?_⟩
  · unfold ReaderToDeltas
    rw [if_neg (by omega)]
    exact hrun
  · intro h2
    refine ⟨hbuffer S, ?_⟩
    rw [hfirst]
    exact hpath S h2

/-- C12 on "foobarfoobar" in chunks of 10 bytes, replayed onto "blah". -/
theorem replay_prepends_witness :
    (0 < 10 ∧ 10 ≤ maxInt ∧ (foobar ++ foobar).length + blah.length ≤ maxInt
      ∧ (foobar ++ foobar).length < 13)
    ∧ ∃ run, ReaderToDeltas stringsReader 10 collect 13 (foobar ++ foobar) [] = some run
      ∧ run.exit = Exit.returned none
      ∧ applyDeltas run.cb blah = some ((foobar ++ foobar) ++ blah)
      ∧ replayToPath run.cb blah = (Exit.returned none, (foobar ++ foobar) ++ blah)
      ∧ replayToPath run.cb [] = (Exit.returned none, foobar ++ foobar)
      ∧ ((foobar ++ foobar).length + (foobar ++ foobar).length ≤ maxInt →
          applyDeltas run.cb (foobar ++ foobar) = some ((foobar ++ foobar) ++ (foobar ++ foobar))
          ∧ replayToPath run.cb (replayToPath run.cb []).2
              = (Exit.returned none, (foobar ++ foobar) ++ (foobar ++ foobar))) :=
  ⟨by decide, replay_prepends (foobar ++ foobar) blah 10 13 (by decide) (by decide)
    (by decide) (by decide)⟩

/-- The replay of the two Deltas of "foobarfoobar" onto a file that already
holds "foobarfoobar", evaluated: the file holds the bytes twice. -/
theorem replay_twice_case :
    replayToPath [⟨0, [], [102, 111, 111, 98, 97, 114, 102, 111, 111, 98]⟩, ⟨10, [], [97, 114]⟩]
        (foobar ++ foobar)
      = (Exit.returned none, foobar ++ foobar ++ foobar ++ foobar) := by
  decide

/-! ## The bytes of `Remove` -/

/-- C13: two Deltas with the same `Offset`, the same `Add` and `Remove` fields
of the same length give the same result on every buffer with `DeltaToBuffer`,
and the same outcome on every file with `DeltaToPath`, whatever the bytes of
the two `Remove` fields are. -/
theorem Remove_bytes_are_ignored (d₁ d₂ : Delta) (buffer : List Byte)
    (hOffset : d₁.Offset = d₂.Offset) (hAdd : d₁.Add = d₂.Add)
    (hRemove : d₁.Remove.length = d₂.Remove.length) :
    DeltaToBuffer d₁ buffer = DeltaToBuffer d₂ buffer
    ∧ DeltaToPath d₁ buffer = DeltaToPath d₂ buffer := by
  constructor
  · unfold DeltaToBuffer
    rw [hOffset, hAdd, hRemove]
  · unfold DeltaToPath
    rw [hOffset, hAdd, hRemove]

/-- C13 on "foobar": removing three bytes at offset 0 gives "bar" whether
`Remove` holds "foo", as the buffer does, or "xyz". -/
theorem Remove_bytes_are_ignored_witness :
    ((⟨0, [102, 111, 111], []⟩ : Delta).Offset = (⟨0, [120, 121, 122], []⟩ : Delta).Offset
      ∧ (⟨0, [102, 111, 111], []⟩ : Delta).Add = (⟨0, [120, 121, 122], []⟩ : Delta).Add
      ∧ (⟨0, [102, 111, 111], []⟩ : Delta).Remove.length
          = (⟨0, [120, 121, 122], []⟩ : Delta).Remove.length)
    ∧ DeltaToBuffer ⟨0, [102, 111, 111], []⟩ foobar = DeltaToBuffer ⟨0, [120, 121, 122], []⟩ foobar
    ∧ DeltaToPath ⟨0, [102, 111, 111], []⟩ foobar = DeltaToPath ⟨0, [120, 121, 122], []⟩ foobar :=
  ⟨by decide, Remove_bytes_are_ignored ⟨0, [102, 111, 111], []⟩ ⟨0, [120, 121, 122], []⟩ foobar
    rfl rfl rfl⟩

/-- The case of the witness above, evaluated: with `Remove` holding "xyz",
which the buffer "foobar" does not hold, both engines still remove "foo". -/
theorem Remove_mismatch_case :
    DeltaToBuffer ⟨0, [120, 121, 122], []⟩ foobar = some [98, 97, 114]
    ∧ DeltaToPath ⟨0, [120, 121, 122], []⟩ foobar = (Exit.returned none, [98, 97, 114]) := by
  decide

/-! ## Runs of the read loop compared -/

theorem readLoop_panic {ρ κ : Type} (reader : Reader ρ) (max : Nat) (callback : Callback κ)
    (fuel : Nat) (st : ρ) (k : κ) (offset : Int)
    (h : (reader.Read st max).1.err = none)
    (hlen : max < (reader.Read st max).1.data.length) :
    readLoop reader max callback (fuel + 1) st k offset =
      some ⟨Exit.panicked, k, [Event.read (reader.Read st max).1]⟩ := by
  rw [readLoop]
  simp only [h]
  rw [if_pos hlen]

theorem readLoop_fuel_succ {ρ κ : Type} (reader : Reader ρ) (max : Nat) (callback : Callback κ) :
    ∀ (fuel : Nat) (st : ρ) (k : κ) (offset : Int) (run : Run κ),
      readLoop reader max callback fuel st k offset = some run →
      readLoop reader max callback (fuel + 1) st k offset = some run := by
  intro fuel
  induction fuel with
  | zero => intro st k offset run h; simp [readLoop] at h
  | succ fuel ih =>
    intro st k offset run h
    cases hre : (reader.Read st max).1.err with
    | some e =>
      rw [readLoop_read_error reader max callback fuel st k offset e hre] at h
      rw [readLoop_read_error reader max callback (fuel + 1) st k offset e hre]
      exact h
    | none =>
      by_cases hlen : max < (reader.Read st max).1.data.length
      · rw [readLoop_panic reader max callback fuel st k offset hre hlen] at h
        rw [readLoop_panic reader max callback (fuel + 1) st k offset hre hlen]
        exact h
      · have hle : (reader.Read st max).1.data.length ≤ max := Nat.le_of_not_lt hlen
        cases hc : (callback k ⟨uint64 offset, [], (reader.Read st max).1.data⟩).1 with
        | some e =>
          rw [readLoop_callback_error reader max callback fuel st k offset e hre hle hc] at h
          rw [readLoop_callback_error reader max callback (fuel + 1) st k offset e hre hle hc]
          exact h
        | none =>
          rw [readLoop_continue reader max callback fuel st k offset hre hle hc] at h
          rw [readLoop_continue reader max callback (fuel + 1) st k offset hre hle hc]
          cases hrec : readLoop reader max callback fuel (reader.Read st max).2
              (callback k ⟨uint64 offset, [], (reader.Read st max).1.data⟩).2
              (int64 (offset + (reader.Read st max).1.data.length)) with
          | none => rw [hrec] at h; simp at h
          | some inner =>
            rw [hrec] at h
            rw [ih _ _ _ inner hrec]
            exact h

theorem readLoop_fuel_le {ρ κ : Type} (reader : Reader ρ) (max : Nat) (callback : Callback κ)
    (st : ρ) (k : κ) (offset : Int) (run : Run κ) (fuel : Nat)
    (h : readLoop reader max callback fuel st k offset = some run) :
    ∀ more : Nat, readLoop reader max callback (fuel + more) st k offset = some run := by
  intro more
  induction more with
  | zero => exact h
  | succ more ih => exact readLoop_fuel_succ reader max callback (fuel + more) st k offset run ih

theorem readLoop_same_reads {ρ₁ ρ₂ κ : Type} (r₁ : Reader ρ₁) (r₂ : Reader ρ₂) (max : Nat)
    (callback : Callback κ) (same : ρ₁ → ρ₂ → Prop)
    (hsame : ∀ s₁ s₂, same s₁ s₂ →
      (r₁.Read s₁ max).1 = (r₂.Read s₂ max).1 ∧ same (r₁.Read s₁ max).2 (r₂.Read s₂ max).2) :
    ∀ (fuel : Nat) (s₁ : ρ₁) (s₂ : ρ₂) (k : κ) (offset : Int), same s₁ s₂ →
      readLoop r₁ max callback fuel s₁ k offset = readLoop r₂ max callback fuel s₂ k offset := by
  intro fuel
  induction fuel with
  | zero => intro s₁ s₂ k offset _; rfl
  | succ fuel ih =>
    intro s₁ s₂ k offset hs
    obtain ⟨hres, hnext⟩ := hsame s₁ s₂ hs
    cases hre : (r₂.Read s₂ max).1.err with
    | some e =>
      rw [readLoop_read_error r₁ max callback fuel s₁ k offset e (by rw [hres]; exact hre),
        readLoop_read_error r₂ max callback fuel s₂ k offset e hre, hres]
    | none =>
      have hre₁ : (r₁.Read s₁ max).1.err = none := by rw [hres]; exact hre
      by_cases hlen : max < (r₂.Read s₂ max).1.data.length
      · rw [readLoop_panic r₁ max callback fuel s₁ k offset hre₁ (by rw [hres]; exact hlen),
          readLoop_panic r₂ max callback fuel s₂ k offset hre hlen, hres]
      · have hle : (r₂.Read s₂ max).1.data.length ≤ max := Nat.le_of_not_lt hlen
        have hle₁ : (r₁.Read s₁ max).1.data.length ≤ max := by rw [hres]; exact hle
        cases hc : (callback k ⟨uint64 offset, [], (r₂.Read s₂ max).1.data⟩).1 with
        | some e =>
          rw [readLoop_callback_error r₁ max callback fuel s₁ k offset e hre₁ hle₁
              (by rw [hres]; exact hc),
            readLoop_callback_error r₂ max callback fuel s₂ k offset e hre hle hc, hres]
        | none =>
          rw [readLoop_continue r₁ max callback fuel s₁ k offset hre₁ hle₁
              (by rw [hres]; exact hc),
            readLoop_continue r₂ max callback fuel s₂ k offset hre hle hc, hres,
            ih _ _ _ _ hnext]

/-- C11: two runs of `ReaderToDeltas` with the same chunk size and callback,
over sources whose reads return the same results call after call, end the
same way and hand the same Deltas, in the same order, to the callback: at
equal fuel the two outcomes are equal, and two runs that return have equal
Delta sequences whatever fuel each was given. -/
theorem ReaderToDeltas_deterministic {ρ₁ ρ₂ κ : Type} (r₁ : Reader ρ₁) (r₂ : Reader ρ₂)
    (max : Nat) (callback : Callback κ) (same : ρ₁ → ρ₂ → Prop) (s₁ : ρ₁) (s₂ : ρ₂) (k : κ)
    (hsame : ∀ t₁ t₂, same t₁ t₂ →
      (r₁.Read t₁ max).1 = (r₂.Read t₂ max).1 ∧ same (r₁.Read t₁ max).2 (r₂.Read t₂ max).2)
    (hstart : same s₁ s₂) :
    (∀ fuel, ReaderToDeltas r₁ max callback fuel s₁ k
        = ReaderToDeltas r₂ max callback fuel s₂ k)
    ∧ (∀ fuel₁ fuel₂ run₁ run₂,
        ReaderToDeltas r₁ max callback fuel₁ s₁ k = some run₁ →
        ReaderToDeltas r₂ max callback fuel₂ s₂ k = some run₂ →
        emitted run₁.trace = emitted run₂.trace
          ∧ (emitted run₁.trace).length = (emitted run₂.trace).length
          ∧ run₁.exit = run₂.exit ∧ run₁.cb = run₂.cb) := by
  have hfuel : ∀ fuel, ReaderToDeltas r₁ max callback fuel s₁ k
      = ReaderToDeltas r₂ max callback fuel s₂ k := by
    intro fuel
    unfold ReaderToDeltas
    rw [readLoop_same_reads r₁ r₂ max callback same hsame fuel s₁ s₂ k 0 hstart]
  refine ⟨hfuel, ?_⟩
  intro fuel₁ fuel₂ run₁ run₂ h₁ h₂
  rw [hfuel] at h₁
  have heq : run₁ = run₂ := by
    unfold ReaderToDeltas at h₁ h₂
    by_cases hbig : maxInt < max
    · rw [if_pos hbig] at h₁ h₂
      rw [← Option.some.inj h₁, ← Option.some.inj h₂]
    · rw [if_neg hbig] at h₁ h₂
      have e₁ := readLoop_fuel_le r₂ max callback s₂ k 0 run₁ fuel₁ h₁ fuel₂
      have e₂ := readLoop_fuel_le r₂ max callback s₂ k 0 run₂ fuel₂ h₂ fuel₁
      rw [Nat.add_comm fuel₂ fuel₁, e₁] at e₂
      exact Option.some.inj e₂
  subst heq
  exact ⟨rfl, rfl, rfl, rfl⟩

/-- C11 on "foobarfoobar" in chunks of 10 bytes, read once through a
`strings.Reader` and once as a file. -/
theorem ReaderToDeltas_deterministic_witness :
    ((∀ t₁ t₂ : List Byte, t₁ = t₂ →
        (stringsReader.Read t₁ 10).1 = (fileReader.Read t₂ 10).1
          ∧ (stringsReader.Read t₁ 10).2 = (fileReader.Read t₂ 10).2)
      ∧ foobar ++ foobar = foobar ++ foobar)
    ∧ (∀ fuel, ReaderToDeltas stringsReader 10 collect fuel (foobar ++ foobar) []
        = ReaderToDeltas fileReader 10 collect fuel (foobar ++ foobar) [])
    ∧ (∀ fuel₁ fuel₂ run₁ run₂,
        ReaderToDeltas stringsReader 10 collect fuel₁ (foobar ++ foobar) [] = some run₁ →
        ReaderToDeltas fileReader 10 collect fuel₂ (foobar ++ foobar) [] = some run₂ →
        emitted run₁.trace = emitted run₂.trace
          ∧ (emitted run₁.trace).length = (emitted run₂.trace).length
          ∧ run₁.exit = run₂.exit ∧ run₁.cb = run₂.cb) :=
  ⟨⟨fun t₁ t₂ h => by subst h; exact ⟨rfl, rfl⟩, rfl⟩,
    ReaderToDeltas_deterministic stringsReader fileReader 10 collect (fun t₁ t₂ => t₁ = t₂)
      (foobar ++ foobar) (foobar ++ foobar) []
      (fun t₁ t₂ h => by subst h; exact ⟨rfl, rfl⟩) rfl⟩

/-! ## Termination of the read loop -/

theorem shortReader_read_end (pick : List Byte → Nat → Nat) (s : List Byte) (n : Nat)
    (h : s.length = 0) :
    (shortReader pick).Read s n = (⟨[], some Error.EOF⟩, s) := by
  unfold shortReader
  simp only [h, if_true]

theorem shortReader_read_data (pick : List Byte → Nat → Nat) (s : List Byte) (n : Nat)
    (h : s.length ≠ 0) :
    (shortReader pick).Read s n
      = (⟨s.take (min (pick s n) n), none⟩, s.drop (min (pick s n) n)) := by
  unfold shortReader
  simp only [h, if_false]

theorem shortReader_fills (s : List Byte) (n : Nat) :
    (shortReader (fun _ m => m)).Read s n = stringsReader.Read s n := by
  unfold shortReader stringsReader
  simp only [Nat.min_self]

theorem readLoop_short_terminates {κ : Type} (pick : List Byte → Nat → Nat)
    (hpick : ∀ s n, s.length ≠ 0 → 0 < n → 0 < pick s n)
    (max : Nat) (hmax : 0 < max) (callback : Callback κ) :
    ∀ (fuel : Nat) (s : List Byte) (k : κ) (offset : Int), s.length < fuel →
      ∃ run, readLoop (shortReader pick) max callback fuel s k offset = some run
        ∧ readCount run.trace ≤ s.length + 1
        ∧ ∃ err, run.exit = Exit.returned err := by
  intro fuel
  induction fuel with
  | zero => intro s k offset h; omega
  | succ fuel ih =>
    intro s k offset hfuel
    by_cases hs : s.length = 0
    · have hread := shortReader_read_end pick s max hs
      refine ⟨_, readLoop_read_error (shortReader pick) max callback fuel s k offset Error.EOF
        (by rw [hread]), ?_, _, rfl⟩
      simp [readCount]
    · have hread := shortReader_read_data pick s max hs
      have hm : 0 < min (pick s max) max := by
        have := hpick s max hs hmax
        omega
      have hm2 : min (pick s max) max ≤ max := Nat.min_le_right _ _
      have hlen : ((shortReader pick).Read s max).1.data.length ≤ max := by
        rw [hread]
        simp only [List.length_take]
        omega
      have hre : ((shortReader pick).Read s max).1.err = none := by rw [hread]
      cases hc : (callback k ⟨uint64 offset, [],
          ((shortReader pick).Read s max).1.data⟩).1 with
      | some e =>
        refine ⟨_, readLoop_callback_error (shortReader pick) max callback fuel s k offset e
          hre hlen hc, ?_, _, rfl⟩
        simp [readCount]
      | none =>
        have hdrop : (((shortReader pick).Read s max).2).length < fuel := by
          rw [hread]
          simp only [List.length_drop]
          omega
        obtain ⟨run, hrun, hcount, err, hexit⟩ :=
          ih ((shortReader pick).Read s max).2
            (callback k ⟨uint64 offset, [], ((shortReader pick).Read s max).1.data⟩).2
            (int64 (offset + ((shortReader pick).Read s max).1.data.length)) hdrop
        refine ⟨⟨run.exit, run.cb, Event.read ((shortReader pick).Read s max).1
            :: Event.call ⟨uint64 offset, [], ((shortReader pick).Read s max).1.data⟩ none
            :: run.trace⟩, ?_, ?_, err, ?_⟩
        · rw [readLoop_continue (shortReader pick) max callback fuel s k offset hre hlen hc,
            hrun]
          rfl
        · have hshrink : (((shortReader pick).Read s max).2).length + 1 ≤ s.length := by
            rw [hread]
            simp only [List.length_drop]
            omega
          simp only [readCount]
          omega
        · exact hexit

theorem readLoop_short_zero (pick : List Byte → Nat → Nat) :
    ∀ (fuel : Nat) (s : List Byte) (acc : List Delta) (offset : Int), s.length ≠ 0 →
      readLoop (shortReader pick) 0 collect fuel s acc offset = none := by
  intro fuel
  induction fuel with
  | zero => intro s acc offset _; rfl
  | succ fuel ih =>
    intro s acc offset hs
    have hread : (shortReader pick).Read s 0 = (⟨[], none⟩, s) := by
      rw [shortReader_read_data pick s 0 hs]
      simp
    rw [readLoop_continue (shortReader pick) 0 collect fuel s acc offset
      (by rw [hread]) (by rw [hread]; simp) (by rfl)]
    rw [hread]
    simp only [ih s _ _ hs, Option.map_none']

/-- C14: over a finite source holding `S` that returns at least one byte per
read while bytes are unread and the buffer has room, and for every `max > 0`,
each read of unread bytes leaves strictly fewer bytes unread, and
`ReaderToDeltas` stops, whatever the callback, having made at most
`len(S) + 1` reads. With `max = 0` a read of a source that is not empty
returns 0 bytes and no error, leaves the unread bytes as they were, and the
scan (with a callback that returns `nil`) never leaves the loop. The call in
`CreateFromPaths` passes `MAX_DELTA_LENGTH`, which is positive. -/
theorem ReaderToDeltas_terminates {κ : Type} (pick : List Byte → Nat → Nat) (S : List Byte)
    (callback : Callback κ) (k : κ)
    (hpick : ∀ s n, s.length ≠ 0 → 0 < n → 0 < pick s n) :
    (∀ max fuel, 0 < max → S.length < fuel →
      (∀ s, s.length ≠ 0 → ((shortReader pick).Read s max).2.length < s.length)
      ∧ ∃ run, ReaderToDeltas (shortReader pick) max callback fuel S k = some run
          ∧ readCount run.trace ≤ S.length + 1
          ∧ (max ≤ maxInt → ∃ err, run.exit = Exit.returned err))
    ∧ (S.length ≠ 0 →
        (shortReader pick).Read S 0 = (⟨[], none⟩, S)
        ∧ ∀ fuel, ReaderToDeltas (shortReader pick) 0 collect fuel S [] = none)
    ∧ 0 < MAX_DELTA_LENGTH := by
  refine ⟨?_, ?_, by decide⟩
  · intro max fuel hmax hfuel
    constructor
    · intro s hs
      have := hpick s max hs hmax
      rw [shortReader_read_data pick s max hs]
      simp only [List.length_drop]
      omega
    · unfold ReaderToDeltas
      by_cases hbig : maxInt < max
      · rw [if_pos hbig]
        refine ⟨_, rfl, ?_, ?_⟩
        · simp [readCount]
        · intro h; omega
      · rw [if_neg hbig]
        obtain ⟨run, hrun, hcount, hexit⟩ :=
          readLoop_short_terminates pick hpick max hmax callback fuel S k 0 hfuel
        exact ⟨run, hrun, hcount, fun _ => hexit⟩
  · intro hS
    constructor
    · rw [shortReader_read_data pick S 0 hS]
      simp
    · intro fuel
      unfold ReaderToDeltas
      rw [if_neg (by decide)]
      exact readLoop_short_zero pick fuel S [] 0 hS

/-- C14 on a source holding "foobar" that fills every read. -/
theorem ReaderToDeltas_terminates_witness :
    (∀ (s : List Byte) (n : Nat), s.length ≠ 0 → 0 < n → 0 < (fun (_ : List Byte) (m : Nat) => m) s n)
    ∧ (∀ max fuel, 0 < max → foobar.length < fuel →
      (∀ s, s.length ≠ 0 → ((shortReader (fun _ m => m)).Read s max).2.length < s.length)
      ∧ ∃ run, ReaderToDeltas (shortReader (fun _ m => m)) max collect fuel foobar [] = some run
          ∧ readCount run.trace ≤ foobar.length + 1
          ∧ (max ≤ maxInt → ∃ err, run.exit = Exit.returned err))
    ∧ (foobar.length ≠ 0 →
        (shortReader (fun _ m => m)).Read foobar 0 = (⟨[], none⟩, foobar)
        ∧ ∀ fuel, ReaderToDeltas (shortReader (fun _ m => m)) 0 collect fuel foobar [] = none)
    ∧ 0 < MAX_DELTA_LENGTH :=
  ⟨fun _ _ _ h => h,
    ReaderToDeltas_terminates (fun _ m => m) foobar collect [] (fun _ _ _ h => h)⟩

/-- The scan of "foobar" with `max = 0`, evaluated at a few amounts of fuel:
it is still in the loop, while with `max = 1` seven iterations are enough. -/
theorem ReaderToDeltas_zero_max_case :
    (ReaderToDeltas stringsReader 0 collect 1 foobar []).isNone = true
    ∧ (ReaderToDeltas stringsReader 0 collect 50 foobar []).isNone = true
    ∧ (ReaderToDeltas stringsReader 1 collect 7 foobar []).isSome = true := by
  decide

/-! ## The first error of a scan -/

theorem ReaderToDeltas_of_le {ρ κ : Type} (reader : Reader ρ) (max : Nat)
    (callback : Callback κ) (fuel : Nat) (st : ρ) (k : κ) (h : max ≤ maxInt) :
    ReaderToDeltas reader max callback fuel st k = readLoop reader max callback fuel st k 0 := by
  unfold ReaderToDeltas
  rw [if_neg (by omega)]

theorem readLoop_script_steps {κ : Type} (max : Nat) (callback : Callback κ)
    (rest : List ReadResult) (fuel : Nat) :
    ∀ (chunks : List (List Byte)) (k : κ) (o : Nat),
      (∀ c ∈ chunks, c.length ≤ max) → o + (chunks.map List.length).sum ≤ maxInt →
      accepts callback k (deltasOf o chunks) = true →
      readLoop scriptReader max callback (chunks.length + fuel)
          (chunks.map (fun c => (⟨c, none⟩ : ReadResult)) ++ rest) k (o : Int)
        = (readLoop scriptReader max callback fuel rest (feed callback k (deltasOf o chunks))
            ((o + (chunks.map List.length).sum : Nat) : Int)).map
          fun run => ⟨run.exit, run.cb, stepsOf o chunks ++ run.trace⟩ := by
  intro chunks
  induction chunks with
  | nil =>
    intro k o _ _ _
    simp only [List.length_nil, Nat.zero_add, List.map_nil, List.nil_append, deltasOf, feed,
      List.sum_nil, Nat.add_zero, stepsOf]
    cases readLoop scriptReader max callback fuel rest k (o : Int) <;> rfl
  | cons c cs ih =>
    intro k o hlen hbound hacc
    have hc : c.length ≤ max := hlen c (List.mem_cons_self _ _)
    simp only [List.map_cons, List.sum_cons] at hbound
    have ho : uint64 (o : Int) = o := uint64_of_lt o (by unfold maxInt at hbound; omega)
    have ho2 : int64 ((o : Int) + (c.length : Nat)) = ((o + c.length : Nat) : Int) := by
      have := int64_of_le (o + c.length) (by omega)
      simpa using this
    simp only [deltasOf, accepts, Bool.and_eq_true, Option.isNone_iff_eq_none] at hacc
    have hstep := ih (callback k ⟨o, [], c⟩).2 (o + c.length)
      (fun x hx => hlen x (List.mem_cons_of_mem _ hx)) (by omega) hacc.2
    have hfuel : (c :: cs).length + fuel = (cs.length + fuel) + 1 := by
      simp only [List.length_cons]; omega
    rw [hfuel, List.map_cons, List.cons_append]
    rw [readLoop_continue scriptReader max callback (cs.length + fuel)
      ((⟨c, none⟩ : ReadResult) :: (cs.map (fun c => (⟨c, none⟩ : ReadResult)) ++ rest)) k o
      rfl hc (by rw [ho]; exact hacc.1)]
    simp only [scriptReader_read_cons, ho, ho2, hstep, Option.map_map, deltasOf, feed,
      List.map_cons, List.sum_cons, Nat.add_assoc]
    rfl

/-- C9: let the first reads of a source return `chunks` without error, the
callback returning `nil` for each of their Deltas. If the next read returns an
error, `ReaderToDeltas` returns `nil` when that error is `io.EOF` and the
error itself otherwise; if the source ends there, it returns `nil`; if the
next read succeeds and the callback returns an error for its Delta, it returns
that error. In each case the calls made are exactly a read and a callback for
every chunk and then the failing step, whatever the source held after it. -/
theorem ReaderToDeltas_stops_at_first_error {κ : Type} (chunks : List (List Byte))
    (callback : Callback κ) (k : κ) (max fuel : Nat)
    (hbuf : max ≤ maxInt) (hchunk : ∀ c ∈ chunks, c.length ≤ max)
    (htotal : (chunks.map List.length).sum ≤ maxInt) (hfuel : chunks.length < fuel)
    (hnil : accepts callback k (deltasOf 0 chunks) = true) :
    (∀ (data : List Byte) (e : Error) (rest : List ReadResult),
      ∃ run, ReaderToDeltas scriptReader max callback fuel
            (chunks.map (fun c => (⟨c, none⟩ : ReadResult)) ++ ⟨data, some e⟩ :: rest) k
          = some run
        ∧ run.exit = Exit.returned (if e = Error.EOF then none else some e)
        ∧ (run.exit = Exit.returned none ↔ e = Error.EOF)
        ∧ run.cb = feed callback k (deltasOf 0 chunks)
        ∧ run.trace = stepsOf 0 chunks ++ [Event.read ⟨data, some e⟩])
    ∧ (∃ run, ReaderToDeltas scriptReader max callback fuel
            (chunks.map (fun c => (⟨c, none⟩ : ReadResult))) k
          = some run
        ∧ run.exit = Exit.returned none
        ∧ run.cb = feed callback k (deltasOf 0 chunks)
        ∧ run.trace = stepsOf 0 chunks ++ [Event.read ⟨[], some Error.EOF⟩])
    ∧ (∀ (c : List Byte) (e : Error) (rest : List ReadResult), c.length ≤ max →
        (callback (feed callback k (deltasOf 0 chunks))
          ⟨(chunks.map List.length).sum, [], c⟩).1 = some e →
      ∃ run, ReaderToDeltas scriptReader max callback fuel
            (chunks.map (fun c => (⟨c, none⟩ : ReadResult)) ++ ⟨c, none⟩ :: rest) k
          = some run
        ∧ run.exit = Exit.returned (some e)
        ∧ run.cb = (callback (feed callback k (deltasOf 0 chunks))
            ⟨(chunks.map List.length).sum, [], c⟩).2
        ∧ run.trace = stepsOf 0 chunks
            ++ [Event.read ⟨c, none⟩,
                Event.call ⟨(chunks.map List.length).sum, [], c⟩ (some e)]) := by
  obtain ⟨more, rfl⟩ : ∃ m, fuel = chunks.length + (m + 1) :=
    ⟨fuel - chunks.length - 1, by omega⟩
  have hsteps := fun rest =>
    readLoop_script_steps max callback rest (more + 1) chunks k 0 hchunk (by omega) hnil
  have hsum : uint64 (((0 + (chunks.map List.length).sum : Nat)) : Int)
      = (chunks.map List.length).sum := by
    rw [Nat.zero_add]
    exact uint64_of_lt _ (by unfold maxInt at htotal; omega)
  refine ⟨?_, ?_, ?_⟩
  · intro data e rest
    have h := hsteps (⟨data, some e⟩ :: rest)
    rw [readLoop_read_error scriptReader max callback more
      ((⟨data, some e⟩ : ReadResult) :: rest) _ _ e rfl] at h
    refine ⟨_, (ReaderToDeltas_of_le scriptReader max callback _ _ k hbuf).trans h,
      rfl, ?_, rfl, rfl⟩
    by_cases he : e = Error.EOF
    · simp [he]
    · simp [he]
  · have h := hsteps []
    rw [List.append_nil, readLoop_read_error scriptReader max callback more
      ([] : List ReadResult) _ _ Error.EOF rfl] at h
    exact ⟨_, (ReaderToDeltas_of_le scriptReader max callback _ _ k hbuf).trans h,
      rfl, rfl, rfl⟩
  · intro c e rest hc hcall
    have h := hsteps (⟨c, none⟩ :: rest)
    rw [readLoop_callback_error scriptReader max callback more
      ((⟨c, none⟩ : ReadResult) :: rest) _ _ e rfl hc
      (by rw [scriptReader_read_cons, hsum]; exact hcall)] at h
    simp only [scriptReader_read_cons, hsum] at h
    exact ⟨_, (ReaderToDeltas_of_le scriptReader max callback _ _ k hbuf).trans h,
      rfl, rfl, rfl⟩

/-- C9 on reads that start with "foobar" and a callback that returns an error
from offset 6 on. -/
theorem ReaderToDeltas_stops_at_first_error_witness :
    (10 ≤ maxInt ∧ (∀ c ∈ [foobar], c.length ≤ 10)
      ∧ ([foobar].map List.length).sum ≤ maxInt ∧ [foobar].length < 2
      ∧ accepts (rejectFrom 6) [] (deltasOf 0 [foobar]) = true)
    ∧ (∀ (data : List Byte) (e : Error) (rest : List ReadResult),
      ∃ run, ReaderToDeltas scriptReader 10 (rejectFrom 6) 2
            ([foobar].map (fun c => (⟨c, none⟩ : ReadResult)) ++ ⟨data, some e⟩ :: rest) []
          = some run
        ∧ run.exit = Exit.returned (if e = Error.EOF then none else some e)
        ∧ (run.exit = Exit.returned none ↔ e = Error.EOF)
        ∧ run.cb = feed (rejectFrom 6) [] (deltasOf 0 [foobar])
        ∧ run.trace = stepsOf 0 [foobar] ++ [Event.read ⟨data, some e⟩])
    ∧ (∃ run, ReaderToDeltas scriptReader 10 (rejectFrom 6) 2
            ([foobar].map (fun c => (⟨c, none⟩ : ReadResult))) []
          = some run
        ∧ run.exit = Exit.returned none
        ∧ run.cb = feed (rejectFrom 6) [] (deltasOf 0 [foobar])
        ∧ run.trace = stepsOf 0 [foobar] ++ [Event.read ⟨[], some Error.EOF⟩])
    ∧ (∀ (c : List Byte) (e : Error) (rest : List ReadResult), c.length ≤ 10 →
        (rejectFrom 6 (feed (rejectFrom 6) [] (deltasOf 0 [foobar]))
          ⟨([foobar].map List.length).sum, [], c⟩).1 = some e →
      ∃ run, ReaderToDeltas scriptReader 10 (rejectFrom 6) 2
            ([foobar].map (fun c => (⟨c, none⟩ : ReadResult)) ++ ⟨c, none⟩ :: rest) []
          = some run
        ∧ run.exit = Exit.returned (some e)
        ∧ run.cb = (rejectFrom 6 (feed (rejectFrom 6) [] (deltasOf 0 [foobar]))
            ⟨([foobar].map List.length).sum, [], c⟩).2
        ∧ run.trace = stepsOf 0 [foobar]
            ++ [Event.read ⟨c, none⟩,
                Event.call ⟨([foobar].map List.length).sum, [], c⟩ (some e)]) :=
  ⟨by decide,
    ReaderToDeltas_stops_at_first_error [foobar] (rejectFrom 6) [] 10 2
      (by decide) (by decide) (by decide) (by decide) (by decide)⟩

/-- The scan of a source that gives "foobar", "blah" and "foobar" with a
callback that returns an error from offset 6 on, evaluated: the callback's
error for "blah" is returned, and the third read is not made. -/
theorem ReaderToDeltas_callback_error_case :
    (ReaderToDeltas scriptReader 10 (rejectFrom 6) 4
        [⟨foobar, none⟩, ⟨blah, none⟩, ⟨foobar, none⟩] []).map
      (fun r => (r.exit, r.cb, r.trace))
    = some (Exit.returned (some (Error.other "full")), [⟨0, [], foobar⟩, ⟨6, [], blah⟩],
        [Event.read ⟨foobar, none⟩, Event.call ⟨0, [], foobar⟩ none,
          Event.read ⟨blah, none⟩, Event.call ⟨6, [], blah⟩ (some (Error.other "full"))]) := by
  decide

/-! ## The round trip, for every way a source may deliver its bytes -/

/-- Three sources holding "foobar", evaluated with `max = 10`: one that
returns one byte per read, one that returns "foo", nothing, "bar", and one
that returns "foo" and then "bar" together with `io.EOF`. The first two
replay to "foobar", the third to "foo". -/
theorem ReaderToDeltas_round_trip_cases :
    ((ReaderToDeltas (shortReader (fun _ _ => 1)) 10 collect 7 foobar []).bind
        (fun r => applyDeltas r.cb [])) = some foobar
    ∧ ((ReaderToDeltas (shortReader (fun _ _ => 1)) 10 collect 7 foobar []).map
        (fun r => (r.exit, r.cb.length))) = some (Exit.returned none, 6)
    ∧ ((ReaderToDeltas scriptReader 10 collect 4
          [⟨[102, 111, 111], none⟩, ⟨[], none⟩, ⟨[98, 97, 114], none⟩] []).bind
        (fun r => applyDeltas r.cb [])) = some foobar
    ∧ ((ReaderToDeltas scriptReader 10 collect 4
          [⟨[102, 111, 111], none⟩, ⟨[98, 97, 114], some Error.EOF⟩] []).bind
        (fun r => applyDeltas r.cb [])) = some [102, 111, 111] := by
  decide

end Labgo
